import Mathlib

/-!
Shallow embedding of `twiver` (src/twiver/stream/twitter.py): a delayed-feedback
streaming engine that turns a feed of timestamped events into a stream of
(index, features, label) triples, fetching labels in batches after a delay.

Modelling conventions:
* Timestamps (`created_at`, due times) are `Int` values: `format_date` parses a
  date string into a comparable scalar; the spec (section 6) treats date-string
  parsing as an external concern, so the embedding works with already-parsed
  moments.
* Tweet ids (keys) are `Nat` (the spec calls them opaque identifiers).
* The Python dict `self.y_queue` is an insertion-ordered association list
  (Python dicts preserve insertion order, and re-assigning an existing key
  keeps its original position).
* HTTP calls are an oracle `FetchFn : List Nat -> Response`; the response
  carries the status code and the optional parsed "data" array, exactly the
  parts of the response object that `Twitter.targets` touches.
* A raised exception is `Option.none` at the Lean level (the only raise
  reachable in the modelled fragment is the `KeyError` from
  `self.y_queue.pop(tweet["id"])` on an id that is not in the buffer).
-/

/-- Features dictionary built by `Twitter.process` from a raw stream line.
Only the fields the core reads are kept: `id` (the key), `created_at` (the
moment) and `text`; the remaining fields (username, metrics, ...) are opaque
payload the orchestrator never inspects. -/
structure Feat where
  id : Nat
  created_at : Int
  text : List Char
deriving DecidableEq, Repr

/-- A raw line of the Twitter stream, already JSON-parsed: `tweet["data"]`
fields used by `twitter_stream` and `process`. -/
structure RawTweet where
  id : Nat
  created_at : Int
  text : List Char
deriving DecidableEq, Repr

/-- One entry of the `"data"` array of a batch-fetch response:
`tweet["id"]` and `tweet["public_metrics"]["retweet_count"]`. -/
structure TweetData where
  id : Nat
  retweet_count : Int
deriving DecidableEq, Repr

/-- A batch-fetch HTTP response: status code plus the optional `"data"` array
of the parsed JSON body (`"data" in tweets` is `data = some _`). -/
structure Response where
  status : Nat
  data : Option (List TweetData)
deriving DecidableEq, Repr

/-- The batch-fetch endpoint as an oracle from the requested ids to the
response. -/
def FetchFn := List Nat → Response

/-- `class Memento(collections.namedtuple("Memento", "key i x t_expire"))`. -/
structure Memento where
  key : Nat
  i : Nat
  x : Feat
  t_expire : Int
deriving DecidableEq, Repr

/-- A Label Request Buffer entry: `self.y_queue[key] = (i, x)`. -/
abbrev KV := Nat × Nat × Feat

/-- Keys of the buffer, in insertion order (`list(self.y_queue.keys())`). -/
def bufKeys (buf : List KV) : List Nat := buf.map (·.1)

/-- `self.y_queue[k] = v`: Python dict assignment on an insertion-ordered
dict — update the value in place if the key is present, else append. -/
def dictInsert (buf : List KV) (k : Nat) (v : Nat × Feat) : List KV :=
  match buf with
  | [] => [(k, v)]
  | (k', v') :: rest =>
    if k' = k then (k, v) :: rest else (k', v') :: dictInsert rest k v

/-- `self.y_queue.pop(k)`: return the value stored at `k` together with the
dict after removal, or `none` (a `KeyError`) if `k` is absent. -/
def popKey (buf : List KV) (k : Nat) : Option ((Nat × Feat) × List KV) :=
  match buf with
  | [] => none
  | (k', v') :: rest =>
    if k' = k then some (v', rest)
    else match popKey rest k with
      | none => none
      | some (v, rest') => some (v, (k', v') :: rest')

/-- `if id in self.y_queue: self.y_queue.pop(id)` for every requested id:
drop the requested ids still present in the buffer. -/
def dropIds (ids : List Nat) (buf : List KV) : List KV :=
  buf.filter (fun e => !(ids.contains e.1))

/-- The loop `for tweet in tweets["data"]`: pop each returned id from the
buffer and emit `(i_old, x_old, y_old)`; a returned id absent from the buffer
is the `KeyError` case (`none`). -/
def emitAll (tweets : List TweetData) (buf : List KV) :
    Option (List (Nat × Feat × Option Int) × List KV) :=
  match tweets with
  | [] => some ([], buf)
  | tw :: rest =>
    match popKey buf tw.id with
    | none => none
    | some ((i_old, x_old), buf') =>
      match emitAll rest buf' with
      | none => none
      | some (outs, buf'') => some ((i_old, x_old, some tw.retweet_count) :: outs, buf'')

/-- `Twitter.targets(key_old, i_old, x_old)`: offer the record to the Label
Request Buffer; when the buffer size reaches `minimum_header_size`, request
the first `maximum_header_size` ids from the batch-fetch endpoint, emit a
labeled triple for each id present in the result, then drop every requested
id still in the buffer. The response's status code is never examined. -/
def targets (fetch : FetchFn) (minSz maxSz : Nat) (buf : List KV)
    (key_old : Nat) (i_old : Nat) (x_old : Feat) :
    Option (List (Nat × Feat × Option Int) × List KV) :=
  let buf1 := dictInsert buf key_old (i_old, x_old)
  if minSz ≤ buf1.length then
    let ids := (bufKeys buf1).take maxSz
    let resp := fetch ids
    match resp.data with
    | none => some ([], dropIds ids buf1)
    | some tweets =>
      match emitAll tweets buf1 with
      | none => none
      | some (outs, buf2) => some (outs, dropIds ids buf2)
  else
    some ([], buf1)

/-- An emitted triple `(i, x, y)`; the label is `none` on the unlabeled
emission and `some y` on a labeled one. -/
abbrev Triple := Nat × Feat × Option Int

/-- The `delay` constructor argument: `None`, a field name (`str`), a scalar,
or a callable. -/
inductive DelayCfg where
  | unset : DelayCfg
  | fieldRef (name : String) : DelayCfg
  | const (d : Int) : DelayCfg
  | computed (f : Nat → Feat → Int) : DelayCfg

/-- `get_moment`: `self.moment` is always the string `"created_at"` (set in
`__init__`), so the `isinstance(self.moment, str)` branch is taken and the
moment is `x["created_at"]`. -/
def getMoment (_i : Nat) (x : Feat) : Int := x.created_at

/-- `get_delay`, called as `get_delay(i, x)` in `__iter__`. In the `str`
branch the function body is `x[self.delay]` with its first parameter — bound
to the integer `i` at the call site — as `x`, so subscripting raises a
`TypeError`; that branch is therefore `none`. -/
def getDelay (cfg : DelayCfg) (i : Nat) (x : Feat) : Option Int :=
  match cfg with
  | .unset => some 0
  | .fieldRef _ => none
  | .const d => some d
  | .computed f => some (f i x)

/-- `get_key`: `self.key` is always `"id"`, so the key is `x["id"]`. -/
def getKey (x : Feat) : Nat := x.id

/-- `bisect.insort(q, el)` with `Memento.__lt__` comparing `t_expire`:
ordered insertion placing the new element after every element whose
`t_expire` is not greater (on a sorted list this is exactly
`bisect.insort_right`). -/
def insortR (q : List Memento) (el : Memento) : List Memento :=
  match q with
  | [] => [el]
  | e :: es =>
    if el.t_expire < e.t_expire then el :: e :: es else e :: insortR es el

/-- `q.append(el)`: the queue used when `delay` is neither callable nor a
string. -/
def appendQ (q : List Memento) (el : Memento) : List Memento := q ++ [el]

/-- The `queue` local function of `__iter__`: sorted insert for a dynamic
delay (callable or field name), plain append otherwise. -/
def chooseInsert (cfg : DelayCfg) : List Memento → Memento → List Memento :=
  match cfg with
  | .fieldRef _ => insortR
  | .computed _ => insortR
  | .unset => appendQ
  | .const _ => appendQ

/-- `deepcopy(x)`: `Feat` is immutable data in the embedding, so a deep copy
is the value itself. -/
def deepcopy (x : Feat) : Feat := x

/-- The `while mementos` loop of `__iter__`: look at the head of the queue;
stop as soon as its `t_expire` exceeds the reference time `t` (the moment of
the incoming event), else hand it to `targets` and delete it. -/
def drain (fetch : FetchFn) (minSz maxSz : Nat) :
    List Memento → Int → List KV → Option (List Triple × List Memento × List KV)
  | [], _, buf => some ([], [], buf)
  | m :: ms, t, buf =>
    if t < m.t_expire then some ([], m :: ms, buf)
    else
      match targets fetch minSz maxSz buf m.key m.i m.x with
      | none => none
      | some (outs, buf') =>
        match drain fetch minSz maxSz ms t buf' with
        | none => none
        | some (outs', ms', buf'') => some (outs ++ outs', ms', buf'')

/-- The body of `for i, x in enumerate(self.twitter_stream())`: compute the
moment, delay and key, drain the due mementos, enqueue the new memento with
`t_expire = t + d`, and yield the unlabeled triple `(i, x, None)` (a deep
copy of `x` when `copy` is set). -/
def stepWith (ins : List Memento → Memento → List Memento) (fetch : FetchFn)
    (dcfg : DelayCfg) (minSz maxSz : Nat) (copy : Bool) (i : Nat) (x : Feat)
    (ms : List Memento) (buf : List KV) :
    Option (List Triple × List Memento × List KV) :=
  let t := getMoment i x
  match getDelay dcfg i x with
  | none => none
  | some d =>
    let key := getKey x
    match drain fetch minSz maxSz ms t buf with
    | none => none
    | some (outs, ms', buf') =>
      let ms'' := ins ms' ⟨key, i, x, t + d⟩
      let x' := if copy then deepcopy x else x
      some (outs ++ [(i, x', none)], ms'', buf')

/-- Iterate `stepWith` over the remaining events, threading the index, the
Pending Queue and the Label Request Buffer. -/
def runWithAux (ins : List Memento → Memento → List Memento) (fetch : FetchFn)
    (dcfg : DelayCfg) (minSz maxSz : Nat) (copy : Bool) :
    Nat → List Memento → List KV → List Feat →
    Option (List Triple × List Memento × List KV)
  | _, ms, buf, [] => some ([], ms, buf)
  | i, ms, buf, x :: xs =>
    match stepWith ins fetch dcfg minSz maxSz copy i x ms buf with
    | none => none
    | some (outs, ms', buf') =>
      match runWithAux ins fetch dcfg minSz maxSz copy (i + 1) ms' buf' xs with
      | none => none
      | some (outs', ms'', buf'') => some (outs ++ outs', ms'', buf'')

/-- A whole run of `__iter__` with an explicit queue-insertion function,
starting from index `0`, an empty Pending Queue and an empty Label Request
Buffer. Returns the emitted triples and the final queue and buffer. -/
def runWith (ins : List Memento → Memento → List Memento) (fetch : FetchFn)
    (dcfg : DelayCfg) (minSz maxSz : Nat) (copy : Bool) (events : List Feat) :
    Option (List Triple × List Memento × List KV) :=
  runWithAux ins fetch dcfg minSz maxSz copy 0 [] [] events

/-- A whole run of `__iter__` as written: the insertion function is the one
`chooseInsert` picks from the delay configuration. -/
def run (fetch : FetchFn) (dcfg : DelayCfg) (minSz maxSz : Nat) (copy : Bool)
    (events : List Feat) : Option (List Triple × List Memento × List KV) :=
  runWith (chooseInsert dcfg) fetch dcfg minSz maxSz copy events

/-- `pat` matches at the head of the text. -/
def matchesAt : List Char → List Char → Bool
  | [], _ => true
  | _ :: _, [] => false
  | p :: ps, c :: cs => p == c && matchesAt ps cs

/-- `pat in text`: the pattern occurs as a contiguous subsequence. -/
def containsSeq (pat : List Char) : List Char → Bool
  | [] => pat.isEmpty
  | c :: cs => matchesAt pat (c :: cs) || containsSeq pat cs

/-- `"RT @" in tweet["data"]["text"]`. -/
def hasRT (text : List Char) : Bool := containsSeq ("RT @".toList) text

/-- `Twitter.process`: build the features dict from a raw line. `format_date`
turns the date string into a comparable scalar (already parsed here); the
other fields it copies (username, reply flag, metrics) are payload the core
never reads and are not modelled. -/
def process (r : RawTweet) : Feat := ⟨r.id, r.created_at, r.text⟩

/-- `Twitter.twitter_stream`: yield `process(tweet)` for each line whose text
does not contain `"RT @"`. -/
def twitterStream (lines : List RawTweet) : List Feat :=
  (lines.filter (fun r => !(hasRT r.text))).map process

/-- The whole pipeline: `__iter__` enumerating `twitter_stream()`. -/
def fullRun (fetch : FetchFn) (dcfg : DelayCfg) (minSz maxSz : Nat)
    (copy : Bool) (lines : List RawTweet) :
    Option (List Triple × List Memento × List KV) :=
  run fetch dcfg minSz maxSz copy (twitterStream lines)

/-!
Instrumented variants. They compute exactly what the plain definitions
compute (see the projection lemmas `targetsL_proj`, `drainL_proj`,
`runL_proj`) and additionally record the observable actions of a run:
`offers` — the mementos handed to `targets` (each one is a
`self.y_queue[key] = (i, x)` write), and `fetches` — for each batch-fetch
HTTP request, the buffer at the moment of the request together with the
requested ids. -/

/-- Result of an instrumented run fragment: emitted triples, remaining
Pending Queue, Label Request Buffer, offered mementos, and the fetch log. -/
structure LogOut where
  outs : List Triple
  ms : List Memento
  buf : List KV
  offers : List Memento
  fetches : List (List KV × List Nat)
deriving Repr

/-- `Twitter.targets`, also returning the fetch log (the buffer after the
offer and the requested ids, when a request is issued). -/
def targetsL (fetch : FetchFn) (minSz maxSz : Nat) (buf : List KV)
    (key_old : Nat) (i_old : Nat) (x_old : Feat) :
    Option (List Triple × List KV × List (List KV × List Nat)) :=
  let buf1 := dictInsert buf key_old (i_old, x_old)
  if minSz ≤ buf1.length then
    let ids := (bufKeys buf1).take maxSz
    let resp := fetch ids
    match resp.data with
    | none => some ([], dropIds ids buf1, [(buf1, ids)])
    | some tweets =>
      match emitAll tweets buf1 with
      | none => none
      | some (outs, buf2) => some (outs, dropIds ids buf2, [(buf1, ids)])
  else
    some ([], buf1, [])

/-- The drain loop, recording each memento handed to `targets`. -/
def drainL (fetch : FetchFn) (minSz maxSz : Nat) :
    List Memento → Int → List KV → Option LogOut
  | [], _, buf => some ⟨[], [], buf, [], []⟩
  | m :: ms, t, buf =>
    if t < m.t_expire then some ⟨[], m :: ms, buf, [], []⟩
    else
      match targetsL fetch minSz maxSz buf m.key m.i m.x with
      | none => none
      | some (outs, buf', fs) =>
        match drainL fetch minSz maxSz ms t buf' with
        | none => none
        | some r => some ⟨outs ++ r.outs, r.ms, r.buf, m :: r.offers, fs ++ r.fetches⟩

/-- One enumeration step, instrumented. -/
def stepL (ins : List Memento → Memento → List Memento) (fetch : FetchFn)
    (dcfg : DelayCfg) (minSz maxSz : Nat) (copy : Bool) (i : Nat) (x : Feat)
    (ms : List Memento) (buf : List KV) : Option LogOut :=
  let t := getMoment i x
  match getDelay dcfg i x with
  | none => none
  | some d =>
    let key := getKey x
    match drainL fetch minSz maxSz ms t buf with
    | none => none
    | some r =>
      let ms'' := ins r.ms ⟨key, i, x, t + d⟩
      let x' := if copy then deepcopy x else x
      some ⟨r.outs ++ [(i, x', none)], ms'', r.buf, r.offers, r.fetches⟩

/-- The instrumented event loop. -/
def runAuxL (ins : List Memento → Memento → List Memento) (fetch : FetchFn)
    (dcfg : DelayCfg) (minSz maxSz : Nat) (copy : Bool) :
    Nat → List Memento → List KV → List Feat → Option LogOut
  | _, ms, buf, [] => some ⟨[], ms, buf, [], []⟩
  | i, ms, buf, x :: xs =>
    match stepL ins fetch dcfg minSz maxSz copy i x ms buf with
    | none => none
    | some r =>
      match runAuxL ins fetch dcfg minSz maxSz copy (i + 1) r.ms r.buf xs with
      | none => none
      | some r' =>
        some ⟨r.outs ++ r'.outs, r'.ms, r'.buf, r.offers ++ r'.offers,
          r.fetches ++ r'.fetches⟩

/-- A whole instrumented run of `__iter__` (insertion function chosen by the
delay configuration, as in the code). -/
def runL (fetch : FetchFn) (dcfg : DelayCfg) (minSz maxSz : Nat) (copy : Bool)
    (events : List Feat) : Option LogOut :=
  runAuxL (chooseInsert dcfg) fetch dcfg minSz maxSz copy 0 [] [] events

/-- Keys of the labeled triples in an output list: a labeled triple carries
the features snapshot, whose `id` field is the key it was buffered under. -/
def labKeys (outs : List Triple) : List Nat :=
  (outs.filter (fun t => t.2.2.isSome)).map (fun t => t.2.1.id)

/-- `self.y_queue[k]`: read a key from the buffer. -/
def lookupKey (buf : List KV) (k : Nat) : Option (Nat × Feat) :=
  match buf with
  | [] => none
  | (k', v') :: rest => if k' = k then some v' else lookupKey rest k

/-- The requested ids of a logged fetch that its result omits (`p` is a
fetch-log entry: the buffer at the request and the requested ids): with no
`"data"` array every requested id is absent; otherwise those not among the
returned tweet ids. -/
def absentIds (fetch : FetchFn) (p : List KV × List Nat) : List Nat :=
  match (fetch p.2).data with
  | none => p.2
  | some tws => p.2.filter (fun k => !((tws.map (·.id)).contains k))

/-- The buffer bookkeeping invariant threaded through a run. The key pools:
`offKs` — keys offered so far, `labKs` — keys of labeled triples emitted so
far, `reqKs` — ids requested from the batch-fetch endpoint so far, `deadKs`
— requested ids whose fetch result omitted them. -/
structure BufInv (offKs labKs reqKs deadKs : List Nat) (buf : List KV) : Prop where
  hB : (labKs ++ bufKeys buf).Nodup
  hR : (reqKs ++ bufKeys buf).Nodup
  hC : ∀ j, j ∈ labKs ∨ j ∈ bufKeys buf ∨ j ∈ reqKs → j ∈ offKs
  hDead : ∀ j ∈ deadKs, j ∉ labKs ∧ j ∉ bufKeys buf
  hDeadReq : ∀ j ∈ deadKs, j ∈ reqKs
  hE : ∀ e ∈ buf, e.2.2.id = e.1

/-- The strict lexicographic order on queue entries: earlier due time, or
equal due time and earlier arrival. -/
def MemLex (a b : Memento) : Prop :=
  a.t_expire < b.t_expire ∨ (a.t_expire = b.t_expire ∧ a.i < b.i)

/-- Forgetting the logs of the instrumented `targets` gives `targets`. -/
theorem targetsL_proj (fetch : FetchFn) (minSz maxSz : Nat) (buf : List KV)
    (k i : Nat) (x : Feat) :
    targets fetch minSz maxSz buf k i x
      = (targetsL fetch minSz maxSz buf k i x).map (fun r => (r.1, r.2.1)) := by
  unfold targets targetsL
  dsimp only
  split
  · split
    · rfl
    · split
      · rfl
      · rfl
  · rfl

/-- Forgetting the logs of the instrumented drain loop gives `drain`. -/
theorem drainL_proj (fetch : FetchFn) (minSz maxSz : Nat) (ms : List Memento)
    (t : Int) (buf : List KV) :
    drain fetch minSz maxSz ms t buf
      = (drainL fetch minSz maxSz ms t buf).map (fun r => (r.outs, r.ms, r.buf)) := by
  induction ms generalizing buf with
  | nil => rfl
  | cons m ms ih =>
    unfold drain drainL
    split
    · rfl
    · rw [targetsL_proj]
      cases h : targetsL fetch minSz maxSz buf m.key m.i m.x with
      | none => rfl
      | some r =>
        obtain ⟨outs, buf', fs⟩ := r
        dsimp only [Option.map]
        rw [ih]
        cases hd : drainL fetch minSz maxSz ms t buf' with
        | none => rfl
        | some r' => rfl

/-- Forgetting the logs of the instrumented step gives `stepWith`. -/
theorem stepL_proj (ins : List Memento → Memento → List Memento)
    (fetch : FetchFn) (dcfg : DelayCfg) (minSz maxSz : Nat) (copy : Bool)
    (i : Nat) (x : Feat) (ms : List Memento) (buf : List KV) :
    stepWith ins fetch dcfg minSz maxSz copy i x ms buf
      = (stepL ins fetch dcfg minSz maxSz copy i x ms buf).map
          (fun r => (r.outs, r.ms, r.buf)) := by
  unfold stepWith stepL
  dsimp only
  cases getDelay dcfg i x with
  | none => rfl
  | some d =>
    dsimp only
    rw [drainL_proj]
    cases drainL fetch minSz maxSz ms (getMoment i x) buf with
    | none => rfl
    | some r => rfl

/-- Forgetting the logs of the instrumented event loop gives `runWithAux`. -/
theorem runAuxL_proj (ins : List Memento → Memento → List Memento)
    (fetch : FetchFn) (dcfg : DelayCfg) (minSz maxSz : Nat) (copy : Bool)
    (i : Nat) (ms : List Memento) (buf : List KV) (events : List Feat) :
    runWithAux ins fetch dcfg minSz maxSz copy i ms buf events
      = (runAuxL ins fetch dcfg minSz maxSz copy i ms buf events).map
          (fun r => (r.outs, r.ms, r.buf)) := by
  induction events generalizing i ms buf with
  | nil => rfl
  | cons x xs ih =>
    unfold runWithAux runAuxL
    rw [stepL_proj]
    cases stepL ins fetch dcfg minSz maxSz copy i x ms buf with
    | none => rfl
    | some r =>
      dsimp only [Option.map]
      rw [ih]
      cases runAuxL ins fetch dcfg minSz maxSz copy (i + 1) r.ms r.buf xs with
      | none => rfl
      | some r' => rfl

/-- Forgetting the logs of the instrumented run gives `run`. -/
theorem runL_proj (fetch : FetchFn) (dcfg : DelayCfg) (minSz maxSz : Nat)
    (copy : Bool) (events : List Feat) :
    run fetch dcfg minSz maxSz copy events
      = (runL fetch dcfg minSz maxSz copy events).map
          (fun r => (r.outs, r.ms, r.buf)) :=
  runAuxL_proj _ _ _ _ _ _ _ _ _ _

/-! Basic lemmas about the buffer primitives. -/

theorem bufKeys_dictInsert_of_mem (buf : List KV) (k : Nat) (v : Nat × Feat)
    (h : k ∈ bufKeys buf) : bufKeys (dictInsert buf k v) = bufKeys buf := by
  induction buf with
  | nil => simp [bufKeys] at h
  | cons e rest ih =>
    by_cases he : e.1 = k
    · simp [dictInsert, he, bufKeys]
    · simp only [bufKeys, List.map_cons, List.mem_cons] at h
      rcases h with h | h
      · exact absurd h.symm he
      · have hih := ih h
        simp only [bufKeys] at hih
        simp [dictInsert, he, bufKeys, hih]

theorem dictInsert_of_not_mem (buf : List KV) (k : Nat) (v : Nat × Feat)
    (h : k ∉ bufKeys buf) : dictInsert buf k v = buf ++ [(k, v)] := by
  induction buf with
  | nil => rfl
  | cons e rest ih =>
    simp only [bufKeys, List.map_cons, List.mem_cons, not_or] at h
    have hne : ¬ e.1 = k := fun hh => h.1 hh.symm
    simp [dictInsert, hne, ih h.2]

theorem bufKeys_dictInsert_of_not_mem (buf : List KV) (k : Nat) (v : Nat × Feat)
    (h : k ∉ bufKeys buf) : bufKeys (dictInsert buf k v) = bufKeys buf ++ [k] := by
  simp [dictInsert_of_not_mem buf k v h, bufKeys]

theorem popKey_sublist (buf : List KV) (k : Nat) (v : Nat × Feat) (buf' : List KV)
    (h : popKey buf k = some (v, buf')) : buf'.Sublist buf := by
  induction buf generalizing buf' with
  | nil => simp [popKey] at h
  | cons e rest ih =>
    by_cases he : e.1 = k
    · simp only [popKey, if_pos he, Option.some.injEq, Prod.mk.injEq] at h
      exact h.2 ▸ List.sublist_cons_self e rest
    · simp only [popKey, if_neg he] at h
      cases hr : popKey rest k with
      | none => rw [hr] at h; exact absurd h (by simp)
      | some p =>
        obtain ⟨v'', rest''⟩ := p
        rw [hr] at h
        simp only [Option.some.injEq, Prod.mk.injEq] at h
        obtain ⟨hv, hb⟩ := h
        subst hv
        subst hb
        exact List.Sublist.cons₂ e (ih _ hr)

theorem popKey_mem (buf : List KV) (k : Nat) (v : Nat × Feat) (buf' : List KV)
    (h : popKey buf k = some (v, buf')) : (k, v) ∈ buf := by
  induction buf generalizing buf' with
  | nil => simp [popKey] at h
  | cons e rest ih =>
    by_cases he : e.1 = k
    · simp only [popKey, if_pos he, Option.some.injEq, Prod.mk.injEq] at h
      have : (k, v) = e := by
        obtain ⟨e1, e2⟩ := e
        simp only at he
        simp [← he, ← h.1]
      rw [this]
      exact List.mem_cons_self e rest
    · simp only [popKey, if_neg he] at h
      cases hr : popKey rest k with
      | none => rw [hr] at h; exact absurd h (by simp)
      | some p =>
        obtain ⟨v'', rest''⟩ := p
        rw [hr] at h
        simp only [Option.some.injEq, Prod.mk.injEq] at h
        obtain ⟨hv, hb⟩ := h
        subst hv
        exact List.mem_cons_of_mem e (ih _ hr)

theorem popKey_keys (buf : List KV) (k : Nat) (v : Nat × Feat) (buf' : List KV)
    (h : popKey buf k = some (v, buf')) :
    bufKeys buf' = (bufKeys buf).erase k ∧ k ∈ bufKeys buf := by
  induction buf generalizing buf' with
  | nil => simp [popKey] at h
  | cons e rest ih =>
    by_cases he : e.1 = k
    · simp only [popKey, if_pos he, Option.some.injEq, Prod.mk.injEq] at h
      obtain ⟨hv, hb⟩ := h
      subst hb
      constructor
      · simp [bufKeys, List.erase_cons, he]
      · simp [bufKeys, he]
    · simp only [popKey, if_neg he] at h
      cases hr : popKey rest k with
      | none => rw [hr] at h; exact absurd h (by simp)
      | some p =>
        obtain ⟨v'', rest''⟩ := p
        rw [hr] at h
        simp only [Option.some.injEq, Prod.mk.injEq] at h
        obtain ⟨hv, hb⟩ := h
        subst hv
        subst hb
        obtain ⟨ih1, ih2⟩ := ih _ hr
        constructor
        · simp only [bufKeys, List.map_cons, List.erase_cons]
          rw [if_neg (by simpa using he)]
          simp only [bufKeys] at ih1
          rw [ih1]
        · simp only [bufKeys, List.map_cons, List.mem_cons]
          exact Or.inr ih2

theorem emitAll_sublist (tws : List TweetData) (buf : List KV)
    (outs : List Triple) (buf' : List KV)
    (h : emitAll tws buf = some (outs, buf')) : buf'.Sublist buf := by
  induction tws generalizing buf outs buf' with
  | nil =>
    simp only [emitAll, Option.some.injEq, Prod.mk.injEq] at h
    exact h.2 ▸ List.Sublist.refl _
  | cons tw rest ih =>
    simp only [emitAll] at h
    cases hp : popKey buf tw.id with
    | none => simp only [hp] at h; exact Option.noConfusion h
    | some p =>
      obtain ⟨⟨i_old, x_old⟩, bufA⟩ := p
      simp only [hp] at h
      cases he : emitAll rest bufA with
      | none => simp only [he] at h; exact Option.noConfusion h
      | some q =>
        obtain ⟨outs2, buf2⟩ := q
        simp only [he, Option.some.injEq, Prod.mk.injEq] at h
        exact h.2 ▸ (ih _ _ _ he).trans (popKey_sublist _ _ _ _ hp)

theorem emitAll_labeled (tws : List TweetData) (buf : List KV)
    (outs : List Triple) (buf' : List KV)
    (h : emitAll tws buf = some (outs, buf')) :
    ∀ t ∈ outs, t.2.2.isSome = true := by
  induction tws generalizing buf outs buf' with
  | nil =>
    simp only [emitAll, Option.some.injEq, Prod.mk.injEq] at h
    rw [← h.1]
    intro t ht
    exact absurd ht (List.not_mem_nil t)
  | cons tw rest ih =>
    simp only [emitAll] at h
    cases hp : popKey buf tw.id with
    | none => simp only [hp] at h; exact Option.noConfusion h
    | some p =>
      obtain ⟨⟨i_old, x_old⟩, bufA⟩ := p
      simp only [hp] at h
      cases he : emitAll rest bufA with
      | none => simp only [he] at h; exact Option.noConfusion h
      | some q =>
        obtain ⟨outs2, buf2⟩ := q
        simp only [he, Option.some.injEq, Prod.mk.injEq] at h
        rw [← h.1]
        intro t ht
        rcases List.mem_cons.mp ht with rfl | ht
        · rfl
        · exact ih _ _ _ he t ht

theorem dropIds_sublist (ids : List Nat) (buf : List KV) :
    (dropIds ids buf).Sublist buf :=
  List.filter_sublist buf

theorem dropIds_not_mem (ids : List Nat) (buf : List KV) (id₀ : Nat)
    (h : id₀ ∈ ids) : id₀ ∉ bufKeys (dropIds ids buf) := by
  intro hmem
  simp only [bufKeys, List.mem_map] at hmem
  obtain ⟨e, he, hk⟩ := hmem
  simp only [dropIds, List.mem_filter, Bool.not_eq_eq_eq_not, Bool.not_true] at he
  have hc : List.elem e.1 ids = true := List.elem_iff.mpr (hk ▸ h)
  have hcc : ids.contains e.1 = true := hc
  rw [he.2] at hcc
  exact Bool.false_ne_true hcc

theorem insortR_perm (q : List Memento) (el : Memento) :
    (insortR q el).Perm (el :: q) := by
  induction q with
  | nil => exact List.Perm.refl _
  | cons e es ih =>
    simp only [insortR]
    split
    · exact List.Perm.refl _
    · exact (List.Perm.cons e ih).trans (List.Perm.swap el e es)

theorem insortR_eq_append (q : List Memento) (el : Memento)
    (h : ∀ e ∈ q, e.t_expire ≤ el.t_expire) : insortR q el = q ++ [el] := by
  induction q with
  | nil => rfl
  | cons e es ih =>
    simp only [insortR]
    rw [if_neg (not_lt.mpr (h e (List.mem_cons_self e es)))]
    rw [ih (fun e' he' => h e' (List.mem_cons_of_mem e he'))]
    rfl

/-- The drain loop removes a prefix of the Pending Queue: the offered
mementos followed by the remaining queue reassemble the original queue. -/
theorem drainL_split (fetch : FetchFn) (minSz maxSz : Nat) (ms : List Memento)
    (t : Int) (buf : List KV) (r : LogOut)
    (h : drainL fetch minSz maxSz ms t buf = some r) : r.offers ++ r.ms = ms := by
  induction ms generalizing buf r with
  | nil =>
    simp only [drainL, Option.some.injEq] at h
    rw [← h]
    rfl
  | cons m ms ih =>
    simp only [drainL] at h
    split at h
    · simp only [Option.some.injEq] at h
      rw [← h]
      rfl
    · cases ht : targetsL fetch minSz maxSz buf m.key m.i m.x with
      | none => simp only [ht] at h; exact Option.noConfusion h
      | some p =>
        obtain ⟨outs, buf', fs⟩ := p
        simp only [ht] at h
        cases hd : drainL fetch minSz maxSz ms t buf' with
        | none => simp only [hd] at h; exact Option.noConfusion h
        | some r' =>
          simp only [hd, Option.some.injEq] at h
          rw [← h]
          simp [ih _ _ hd]

/-- Mementos remaining after a drain were in the queue before it. -/
theorem drain_sub (fetch : FetchFn) (minSz maxSz : Nat) (ms : List Memento)
    (t : Int) (buf : List KV) (outs : List Triple) (ms' : List Memento)
    (buf' : List KV) (h : drain fetch minSz maxSz ms t buf = some (outs, ms', buf')) :
    ∀ m ∈ ms', m ∈ ms := by
  rw [drainL_proj] at h
  cases hd : drainL fetch minSz maxSz ms t buf with
  | none => rw [hd] at h; exact Option.noConfusion h
  | some r =>
    rw [hd] at h
    simp only [Option.map, Option.some.injEq, Prod.mk.injEq] at h
    intro m hm
    have := drainL_split fetch minSz maxSz ms t buf r hd
    rw [← this]
    exact List.mem_append_right _ (h.2.1 ▸ hm)

theorem insortR_lex (q : List Memento) (el : Memento)
    (hsort : q.Pairwise MemLex) (harr : ∀ m ∈ q, m.i < el.i) :
    (insortR q el).Pairwise MemLex := by
  induction q with
  | nil => simp [insortR]
  | cons e es ih =>
    rcases List.pairwise_cons.mp hsort with ⟨he, hes⟩
    simp only [insortR]
    split
    · refine List.pairwise_cons.mpr ⟨?_, hsort⟩
      intro y hy
      rcases List.mem_cons.mp hy with rfl | hy
      · exact Or.inl (by assumption)
      · rcases he y hy with h1 | h1
        · exact Or.inl (lt_trans (by assumption) h1)
        · exact Or.inl (lt_of_lt_of_le (by assumption) (le_of_eq h1.1))
    · refine List.pairwise_cons.mpr ⟨?_, ih hes (fun m hm => harr m (List.mem_cons_of_mem e hm))⟩
      intro y hy
      have hy' : y ∈ el :: es := (insortR_perm es el).subset hy
      rcases List.mem_cons.mp hy' with rfl | hy'
      · rcases lt_or_eq_of_le (not_lt.mp (by assumption)) with h1 | h1
        · exact Or.inl h1
        · exact Or.inr ⟨h1, harr e (List.mem_cons_self e es)⟩
      · exact he y hy'

/-- Every memento in an `insortR`-result is the inserted one or one of the
old ones. -/
theorem insortR_mem (q : List Memento) (el : Memento) (m : Memento)
    (h : m ∈ insortR q el) : m = el ∨ m ∈ q := by
  have := (insortR_perm q el).subset h
  exact List.mem_cons.mp this

/-- Run invariant for the sorted-insert queue: starting from a
lexicographically ordered queue whose arrival indices are below the next
index, the final queue is still lexicographically ordered. -/
theorem runAuxL_queue_lex (fetch : FetchFn) (dcfg : DelayCfg) (mn mx : Nat)
    (copy : Bool) (events : List Feat) (i : Nat) (ms : List Memento)
    (buf : List KV) (r : LogOut)
    (hsort : ms.Pairwise MemLex) (hlt : ∀ m ∈ ms, m.i < i)
    (h : runAuxL insortR fetch dcfg mn mx copy i ms buf events = some r) :
    r.ms.Pairwise MemLex := by
  induction events generalizing i ms buf r with
  | nil =>
    simp only [runAuxL, Option.some.injEq] at h
    rw [← h]
    exact hsort
  | cons x xs ih =>
    simp only [runAuxL] at h
    cases hs : stepL insortR fetch dcfg mn mx copy i x ms buf with
    | none => simp only [hs] at h; exact Option.noConfusion h
    | some r₁ =>
      simp only [hs] at h
      cases hr : runAuxL insortR fetch dcfg mn mx copy (i + 1) r₁.ms r₁.buf xs with
      | none => simp only [hr] at h; exact Option.noConfusion h
      | some r₂ =>
        simp only [hr, Option.some.injEq] at h
        -- unpack the step to see the queue it produced
        simp only [stepL] at hs
        cases hd : getDelay dcfg i x with
        | none => simp only [hd] at hs; exact Option.noConfusion hs
        | some d =>
          simp only [hd] at hs
          cases hdr : drainL fetch mn mx ms (getMoment i x) buf with
          | none => simp only [hdr] at hs; exact Option.noConfusion hs
          | some rd =>
            simp only [hdr, Option.some.injEq] at hs
            have hsplit := drainL_split fetch mn mx ms (getMoment i x) buf rd hdr
            have hmssub : rd.ms.Sublist ms := by
              rw [← hsplit]; exact List.sublist_append_right _ _
            have hsort' : rd.ms.Pairwise MemLex := hsort.sublist hmssub
            have hlt' : ∀ m ∈ rd.ms, m.i < i := fun m hm => hlt m (hmssub.subset hm)
            have hq : r₁.ms = insortR rd.ms ⟨getKey x, i, x, getMoment i x + d⟩ := by
              rw [← hs]
            have hq_sort : r₁.ms.Pairwise MemLex := by
              rw [hq]; exact insortR_lex _ _ hsort' hlt'
            have hq_lt : ∀ m ∈ r₁.ms, m.i < i + 1 := by
              rw [hq]
              intro m hm
              rcases insortR_mem _ _ _ hm with rfl | hm
              · exact Nat.lt_succ_self i
              · exact Nat.lt_succ_of_lt (hlt' m hm)
            have := ih (i + 1) r₁.ms r₁.buf r₂ hq_sort hq_lt hr
            rw [← h]
            exact this

/-- C8: with a dynamic delay (callable or field name) the Pending Queue is
kept totally ordered by `due_at`, and among records with equal `due_at` the
earlier-arrived one precedes the later one: `bisect.insort`'s right-insert
with `Memento.__lt__` is a stable sorted insert. First conjunct: any one
insertion preserves the order; second conjunct: after a whole run with a
callable delay, the remaining Pending Queue is so ordered. -/
theorem pending_queue_sorted_stable :
    (∀ (q : List Memento) (el : Memento), q.Pairwise MemLex →
      (∀ m ∈ q, m.i < el.i) →
      ((insortR q el).Pairwise (fun a b => a.t_expire ≤ b.t_expire) ∧
        (insortR q el).Pairwise (fun a b => a.t_expire = b.t_expire → a.i < b.i))) ∧
    (∀ (f : Nat → Feat → Int) (fetch : FetchFn) (mn mx : Nat) (copy : Bool)
        (events : List Feat) (r : LogOut),
      runL fetch (.computed f) mn mx copy events = some r →
      r.ms.Pairwise (fun a b => a.t_expire ≤ b.t_expire) ∧
      r.ms.Pairwise (fun a b => a.t_expire = b.t_expire → a.i < b.i)) := by
  have himp1 : ∀ a b : Memento, MemLex a b → a.t_expire ≤ b.t_expire := by
    intro a b hab
    rcases hab with hab | hab
    · exact le_of_lt hab
    · exact le_of_eq hab.1
  have himp2 : ∀ a b : Memento, MemLex a b → (a.t_expire = b.t_expire → a.i < b.i) := by
    intro a b hab heq
    rcases hab with hab | hab
    · exact absurd heq (ne_of_lt hab)
    · exact hab.2
  constructor
  · intro q el hsort harr
    have hlex := insortR_lex q el hsort harr
    exact ⟨hlex.imp (fun hab => himp1 _ _ hab), hlex.imp (fun hab => himp2 _ _ hab)⟩
  · intro f fetch mn mx copy events r h
    have hlex := runAuxL_queue_lex fetch (.computed f) mn mx copy events 0 [] [] r
      (List.Pairwise.nil) (fun m hm => absurd hm (List.not_mem_nil m)) h
    exact ⟨hlex.imp (fun hab => himp1 _ _ hab), hlex.imp (fun hab => himp2 _ _ hab)⟩

theorem pending_queue_sorted_stable_witness :
    ([⟨0, 0, ⟨0, 0, []⟩, 5⟩] : List Memento).Pairwise MemLex ∧
    (∀ m ∈ ([⟨0, 0, ⟨0, 0, []⟩, 5⟩] : List Memento), m.i < 1) ∧
    ((insortR [⟨0, 0, ⟨0, 0, []⟩, 5⟩] ⟨1, 1, ⟨1, 0, []⟩, 3⟩).Pairwise
        (fun a b => a.t_expire ≤ b.t_expire) ∧
      (insortR [⟨0, 0, ⟨0, 0, []⟩, 5⟩] ⟨1, 1, ⟨1, 0, []⟩, 3⟩).Pairwise
        (fun a b => a.t_expire = b.t_expire → a.i < b.i)) :=
  ⟨List.pairwise_singleton _ _, by simp,
    pending_queue_sorted_stable.1 _ _ (List.pairwise_singleton _ _) (by simp)⟩

/-- With a uniform delay `d`, appending to the queue tail computes the same
run as sorted insertion, provided the moments arrive in non-decreasing
order: every new due time then bounds every pending due time from above, so
the sorted insert degenerates to an append. -/
theorem runWithAux_append_eq_insort (fetch : FetchFn) (dcfg : DelayCfg)
    (mn mx : Nat) (copy : Bool) (d : Int)
    (hdelay : ∀ i x, getDelay dcfg i x = some d) :
    ∀ (events : List Feat) (i : Nat) (ms : List Memento) (buf : List KV),
    (∀ m ∈ ms, ∀ x ∈ events, m.t_expire ≤ x.created_at + d) →
    events.Pairwise (fun a b => a.created_at ≤ b.created_at) →
    runWithAux appendQ fetch dcfg mn mx copy i ms buf events
      = runWithAux insortR fetch dcfg mn mx copy i ms buf events := by
  intro events
  induction events with
  | nil => intro i ms buf _ _; rfl
  | cons x xs ih =>
    intro i ms buf hub hmono
    simp only [runWithAux, stepWith, hdelay i x]
    cases hdr : drain fetch mn mx ms (getMoment i x) buf with
    | none => simp only [hdr]
    | some p =>
      obtain ⟨outs, ms', buf'⟩ := p
      simp only [hdr]
      have hbound : ∀ e ∈ ms',
          e.t_expire ≤ (⟨getKey x, i, x, getMoment i x + d⟩ : Memento).t_expire := by
        intro e he
        exact hub e (drain_sub fetch mn mx ms (getMoment i x) buf outs ms' buf' hdr e he)
          x (List.mem_cons_self x xs)
      have hins : insortR ms' ⟨getKey x, i, x, getMoment i x + d⟩
          = appendQ ms' ⟨getKey x, i, x, getMoment i x + d⟩ :=
        insortR_eq_append ms' _ hbound
      rw [hins]
      have hub' : ∀ m ∈ appendQ ms' ⟨getKey x, i, x, getMoment i x + d⟩,
          ∀ y ∈ xs, m.t_expire ≤ y.created_at + d := by
        intro m hm y hy
        rcases List.mem_append.mp hm with hm | hm
        · exact hub m (drain_sub fetch mn mx ms (getMoment i x) buf outs ms' buf' hdr m hm)
            y (List.mem_cons_of_mem x hy)
        · rcases List.mem_singleton.mp hm with rfl
          have hxy : x.created_at ≤ y.created_at := (List.pairwise_cons.mp hmono).1 y hy
          exact add_le_add_right hxy d
      rw [ih (i + 1) (appendQ ms' ⟨getKey x, i, x, getMoment i x + d⟩) buf' hub'
        (List.pairwise_cons.mp hmono).2]

/-- C9: when `delay` is a fixed scalar (or unset, i.e. zero) and moments
arrive in non-decreasing order, the due times are monotone with arrival
order, and the append-at-tail queue the code picks for this configuration
produces exactly the same run (same triples in the same order, same final
queue and buffer) as the always-valid sorted-insert queue. -/
theorem const_delay_append_equiv (fetch : FetchFn) (dcfg : DelayCfg) (d : Int)
    (mn mx : Nat) (copy : Bool) (events : List Feat)
    (hdc : dcfg = DelayCfg.const d ∨ (dcfg = DelayCfg.unset ∧ d = 0))
    (hmono : events.Pairwise (fun a b => a.created_at ≤ b.created_at)) :
    (events.map (fun x => x.created_at + d)).Pairwise (fun a b => a ≤ b) ∧
    run fetch dcfg mn mx copy events = runWith insortR fetch dcfg mn mx copy events := by
  have hdelay : ∀ i x, getDelay dcfg i x = some d := by
    rcases hdc with rfl | ⟨rfl, rfl⟩ <;> intro i x <;> rfl
  have hch : chooseInsert dcfg = appendQ := by
    rcases hdc with rfl | ⟨rfl, hd0⟩ <;> rfl
  constructor
  · rw [List.pairwise_map]
    exact hmono.imp (fun hab => add_le_add_right hab d)
  · show runWith (chooseInsert dcfg) fetch dcfg mn mx copy events = _
    rw [hch]
    exact runWithAux_append_eq_insort fetch dcfg mn mx copy d hdelay events 0 [] []
      (by intro m hm; exact absurd hm (List.not_mem_nil m)) hmono

theorem const_delay_append_equiv_witness :
    ((([⟨0, 0, []⟩, ⟨1, 5, []⟩] : List Feat).map (fun x => x.created_at + 10)).Pairwise
        (fun a b => a ≤ b) ∧
      run (fun _ => ⟨200, some []⟩) (.const 10) 2 10 true [⟨0, 0, []⟩, ⟨1, 5, []⟩]
        = runWith insortR (fun _ => ⟨200, some []⟩) (.const 10) 2 10 true
            [⟨0, 0, []⟩, ⟨1, 5, []⟩]) :=
  const_delay_append_equiv (fun _ => ⟨200, some []⟩) (.const 10) 10 2 10 true
    [⟨0, 0, []⟩, ⟨1, 5, []⟩] (Or.inl rfl) (by decide)

/-- C10: a raw stream line whose text contains `"RT @"` is filtered out
before enumeration: the event stream — and with it the entire run, its
indices, queue, buffer and every emitted triple — is the same as if the line
had never arrived. -/
theorem rt_line_skipped (l₁ l₂ : List RawTweet) (rt : RawTweet)
    (h : hasRT rt.text = true) (fetch : FetchFn) (dcfg : DelayCfg)
    (minSz maxSz : Nat) (copy : Bool) :
    twitterStream (l₁ ++ rt :: l₂) = twitterStream (l₁ ++ l₂) ∧
    fullRun fetch dcfg minSz maxSz copy (l₁ ++ rt :: l₂)
      = fullRun fetch dcfg minSz maxSz copy (l₁ ++ l₂) := by
  have hs : twitterStream (l₁ ++ rt :: l₂) = twitterStream (l₁ ++ l₂) := by
    simp [twitterStream, List.filter_append, h]
  exact ⟨hs, by simp only [fullRun, hs]⟩

theorem rt_line_skipped_witness :
    hasRT (⟨7, 3, "a RT @b".toList⟩ : RawTweet).text = true ∧
    (twitterStream ([⟨1, 0, "x".toList⟩] ++ ⟨7, 3, "a RT @b".toList⟩ :: [⟨2, 4, "y".toList⟩])
        = twitterStream ([⟨1, 0, "x".toList⟩] ++ [⟨2, 4, "y".toList⟩]) ∧
      fullRun (fun _ => ⟨200, some []⟩) (.const 1) 10 100 true
          ([⟨1, 0, "x".toList⟩] ++ ⟨7, 3, "a RT @b".toList⟩ :: [⟨2, 4, "y".toList⟩])
        = fullRun (fun _ => ⟨200, some []⟩) (.const 1) 10 100 true
            ([⟨1, 0, "x".toList⟩] ++ [⟨2, 4, "y".toList⟩])) :=
  ⟨by decide,
    rt_line_skipped [⟨1, 0, "x".toList⟩] [⟨2, 4, "y".toList⟩] ⟨7, 3, "a RT @b".toList⟩
      (by decide) (fun _ => ⟨200, some []⟩) (.const 1) 10 100 true⟩

/-- C4 (the code side of the claim): `Twitter.targets` never reads the
batch-fetch response's status code. A non-success response (any status `s`,
here with an error body that has no `"data"` array) does not raise: the call
returns normally (`some`), emits nothing, silently drops every requested id
from the buffer, and the stream continues. Every other endpoint in the file
checks `status_code` and raises; the batch fetch is the one that does not. -/
theorem targets_ignores_fetch_status :
    ∀ s : Nat,
      targets (fun _ => ⟨s, none⟩) 2 10 [(3, 0, ⟨3, 0, []⟩)] 4 1 ⟨4, 1, []⟩
        = some ([], []) := by
  intro s
  rfl

/-- What one `targets` call records in the fetch log: a request is issued
precisely when the buffer (after the offer) reaches `minimum_header_size`;
the logged buffer is that post-offer buffer, the requested ids are its first
`maximum_header_size` keys, and every requested id is gone from the buffer
the call returns. -/
theorem targetsL_fetches (fetch : FetchFn) (mn mx : Nat) (buf : List KV)
    (k i : Nat) (x : Feat) (outs : List Triple) (buf' : List KV)
    (fs : List (List KV × List Nat))
    (h : targetsL fetch mn mx buf k i x = some (outs, buf', fs)) :
    (fs ≠ [] ↔ mn ≤ (dictInsert buf k (i, x)).length) ∧
    ∀ p ∈ fs, p.1 = dictInsert buf k (i, x) ∧ p.2 = (bufKeys p.1).take mx ∧
      mn ≤ p.1.length ∧ ∀ id ∈ p.2, id ∉ bufKeys buf' := by
  simp only [targetsL] at h
  split at h
  · rename_i hle
    cases hdata : (fetch ((bufKeys (dictInsert buf k (i, x))).take mx)).data with
    | none =>
      simp only [hdata, Option.some.injEq, Prod.mk.injEq] at h
      obtain ⟨houts, hbuf, hfs⟩ := h
      subst hbuf
      subst hfs
      refine ⟨⟨fun _ => hle, fun _ => by simp⟩, ?_⟩
      intro p hp
      rcases List.mem_singleton.mp hp with rfl
      exact ⟨rfl, rfl, hle, fun id₀ hid => dropIds_not_mem _ _ _ hid⟩
    | some tweets =>
      simp only [hdata] at h
      cases he : emitAll tweets (dictInsert buf k (i, x)) with
      | none => simp only [he] at h; exact Option.noConfusion h
      | some q =>
        obtain ⟨o, buf2⟩ := q
        simp only [he, Option.some.injEq, Prod.mk.injEq] at h
        obtain ⟨houts, hbuf, hfs⟩ := h
        subst hbuf
        subst hfs
        refine ⟨⟨fun _ => hle, fun _ => by simp⟩, ?_⟩
        intro p hp
        rcases List.mem_singleton.mp hp with rfl
        exact ⟨rfl, rfl, hle, fun id₀ hid => dropIds_not_mem _ _ _ hid⟩
  · rename_i hnle
    simp only [Option.some.injEq, Prod.mk.injEq] at h
    obtain ⟨houts, hbuf, hfs⟩ := h
    subst hfs
    exact ⟨by simpa using hnle, fun p hp => absurd hp (List.not_mem_nil p)⟩

/-- Every fetch-log entry of a drain satisfies the per-request shape facts. -/
theorem drainL_fetchP (fetch : FetchFn) (mn mx : Nat) (ms : List Memento)
    (t : Int) (buf : List KV) (r : LogOut)
    (h : drainL fetch mn mx ms t buf = some r) :
    ∀ p ∈ r.fetches, p.2 = (bufKeys p.1).take mx ∧ mn ≤ p.1.length := by
  induction ms generalizing buf r with
  | nil =>
    simp only [drainL, Option.some.injEq] at h
    rw [← h]
    intro p hp
    exact absurd hp (List.not_mem_nil p)
  | cons m ms ih =>
    simp only [drainL] at h
    split at h
    · simp only [Option.some.injEq] at h
      rw [← h]
      intro p hp
      exact absurd hp (List.not_mem_nil p)
    · cases ht : targetsL fetch mn mx buf m.key m.i m.x with
      | none => simp only [ht] at h; exact Option.noConfusion h
      | some p₀ =>
        obtain ⟨outs, buf', fs⟩ := p₀
        simp only [ht] at h
        cases hd : drainL fetch mn mx ms t buf' with
        | none => simp only [hd] at h; exact Option.noConfusion h
        | some r' =>
          simp only [hd, Option.some.injEq] at h
          rw [← h]
          intro p hp
          rcases List.mem_append.mp hp with hp | hp
          · obtain ⟨-, hfacts⟩ := targetsL_fetches fetch mn mx buf m.key m.i m.x outs buf' fs ht
            obtain ⟨-, h2, h3, -⟩ := hfacts p hp
            exact ⟨h2, h3⟩
          · exact ih buf' r' hd p hp

/-- Every fetch-log entry of one enumeration step satisfies the shape facts. -/
theorem stepL_fetchP (ins : List Memento → Memento → List Memento)
    (fetch : FetchFn) (dcfg : DelayCfg) (mn mx : Nat) (copy : Bool)
    (i : Nat) (x : Feat) (ms : List Memento) (buf : List KV) (r : LogOut)
    (h : stepL ins fetch dcfg mn mx copy i x ms buf = some r) :
    ∀ p ∈ r.fetches, p.2 = (bufKeys p.1).take mx ∧ mn ≤ p.1.length := by
  simp only [stepL] at h
  cases hd : getDelay dcfg i x with
  | none => simp only [hd] at h; exact Option.noConfusion h
  | some d =>
    simp only [hd] at h
    cases hdr : drainL fetch mn mx ms (getMoment i x) buf with
    | none => simp only [hdr] at h; exact Option.noConfusion h
    | some rd =>
      simp only [hdr, Option.some.injEq] at h
      rw [← h]
      exact drainL_fetchP fetch mn mx ms (getMoment i x) buf rd hdr

/-- Every fetch-log entry of the event loop satisfies the shape facts. -/
theorem runAuxL_fetchP (ins : List Memento → Memento → List Memento)
    (fetch : FetchFn) (dcfg : DelayCfg) (mn mx : Nat) (copy : Bool)
    (i : Nat) (ms : List Memento) (buf : List KV) (events : List Feat) (r : LogOut)
    (h : runAuxL ins fetch dcfg mn mx copy i ms buf events = some r) :
    ∀ p ∈ r.fetches, p.2 = (bufKeys p.1).take mx ∧ mn ≤ p.1.length := by
  induction events generalizing i ms buf r with
  | nil =>
    simp only [runAuxL, Option.some.injEq] at h
    rw [← h]
    intro p hp
    exact absurd hp (List.not_mem_nil p)
  | cons x xs ih =>
    simp only [runAuxL] at h
    cases hs : stepL ins fetch dcfg mn mx copy i x ms buf with
    | none => simp only [hs] at h; exact Option.noConfusion h
    | some r₁ =>
      simp only [hs] at h
      cases hr : runAuxL ins fetch dcfg mn mx copy (i + 1) r₁.ms r₁.buf xs with
      | none => simp only [hr] at h; exact Option.noConfusion h
      | some r₂ =>
        simp only [hr, Option.some.injEq] at h
        rw [← h]
        intro p hp
        rcases List.mem_append.mp hp with hp | hp
        · exact stepL_fetchP ins fetch dcfg mn mx copy i x ms buf r₁ hs p hp
        · exact ih (i + 1) r₁.ms r₁.buf r₂ hr p hp

theorem sublist_append_extend {l L₁ L₂ : List Nat} (h : l.Sublist L₁) :
    l.Sublist (L₁ ++ L₂) :=
  h.trans (List.sublist_append_left L₁ L₂)

/-- One `targets` call keeps the buffer keys a subsequence of the offer
trace: `L` is the key trace of offers made so far, and the call adds `k`. -/
theorem targetsL_trace (fetch : FetchFn) (mn mx : Nat) (buf : List KV)
    (k i : Nat) (x : Feat) (outs : List Triple) (buf' : List KV)
    (fs : List (List KV × List Nat)) (L : List Nat)
    (hL : (bufKeys buf).Sublist L)
    (h : targetsL fetch mn mx buf k i x = some (outs, buf', fs)) :
    (bufKeys buf').Sublist (L ++ [k]) ∧
    ∀ p ∈ fs, (bufKeys p.1).Sublist (L ++ [k]) := by
  have hbuf1 : (bufKeys (dictInsert buf k (i, x))).Sublist (L ++ [k]) := by
    by_cases hk : k ∈ bufKeys buf
    · rw [bufKeys_dictInsert_of_mem buf k (i, x) hk]
      exact sublist_append_extend hL
    · rw [bufKeys_dictInsert_of_not_mem buf k (i, x) hk]
      exact hL.append (List.Sublist.refl [k])
  simp only [targetsL] at h
  split at h
  · cases hdata : (fetch ((bufKeys (dictInsert buf k (i, x))).take mx)).data with
    | none =>
      simp only [hdata, Option.some.injEq, Prod.mk.injEq] at h
      obtain ⟨houts, hbuf, hfs⟩ := h
      subst hbuf
      subst hfs
      refine ⟨((dropIds_sublist _ _).map _).trans hbuf1, ?_⟩
      intro p hp
      rcases List.mem_singleton.mp hp with rfl
      exact hbuf1
    | some tweets =>
      simp only [hdata] at h
      cases he : emitAll tweets (dictInsert buf k (i, x)) with
      | none => simp only [he] at h; exact Option.noConfusion h
      | some q =>
        obtain ⟨o, buf2⟩ := q
        simp only [he, Option.some.injEq, Prod.mk.injEq] at h
        obtain ⟨houts, hbuf, hfs⟩ := h
        subst hbuf
        subst hfs
        refine ⟨(((dropIds_sublist _ _).trans
          (emitAll_sublist _ _ _ _ he)).map _).trans hbuf1, ?_⟩
        intro p hp
        rcases List.mem_singleton.mp hp with rfl
        exact hbuf1
  · simp only [Option.some.injEq, Prod.mk.injEq] at h
    obtain ⟨houts, hbuf, hfs⟩ := h
    subst hbuf
    subst hfs
    exact ⟨hbuf1, fun p hp => absurd hp (List.not_mem_nil p)⟩

/-- Through a drain, buffer keys (also those logged at each fetch) stay a
subsequence of the offer trace. -/
theorem drainL_trace (fetch : FetchFn) (mn mx : Nat) (ms : List Memento)
    (t : Int) (buf : List KV) (r : LogOut) (L : List Nat)
    (hL : (bufKeys buf).Sublist L)
    (h : drainL fetch mn mx ms t buf = some r) :
    (bufKeys r.buf).Sublist (L ++ r.offers.map (·.key)) ∧
    ∀ p ∈ r.fetches, (bufKeys p.1).Sublist (L ++ r.offers.map (·.key)) := by
  induction ms generalizing buf r L with
  | nil =>
    simp only [drainL, Option.some.injEq] at h
    rw [← h]
    refine ⟨by simpa using hL, ?_⟩
    intro p hp
    exact absurd hp (List.not_mem_nil p)
  | cons m ms ih =>
    simp only [drainL] at h
    split at h
    · simp only [Option.some.injEq] at h
      rw [← h]
      refine ⟨by simpa using hL, ?_⟩
      intro p hp
      exact absurd hp (List.not_mem_nil p)
    · cases ht : targetsL fetch mn mx buf m.key m.i m.x with
      | none => simp only [ht] at h; exact Option.noConfusion h
      | some p₀ =>
        obtain ⟨outs, buf', fs⟩ := p₀
        simp only [ht] at h
        cases hd : drainL fetch mn mx ms t buf' with
        | none => simp only [hd] at h; exact Option.noConfusion h
        | some r' =>
          simp only [hd, Option.some.injEq] at h
          obtain ⟨htr1, htr2⟩ :=
            targetsL_trace fetch mn mx buf m.key m.i m.x outs buf' fs L hL ht
          obtain ⟨ihb, ihf⟩ := ih buf' r' (L ++ [m.key]) htr1 hd
          rw [← h]
          have hassoc : (L ++ [m.key]) ++ r'.offers.map (·.key)
              = L ++ (m :: r'.offers).map (·.key) := by
            simp
          constructor
          · show (bufKeys r'.buf).Sublist (L ++ (m :: r'.offers).map (·.key))
            rw [← hassoc]
            exact ihb
          · intro p hp
            rcases List.mem_append.mp hp with hp | hp
            · show (bufKeys p.1).Sublist (L ++ (m :: r'.offers).map (·.key))
              rw [← hassoc]
              exact sublist_append_extend (htr2 p hp)
            · show (bufKeys p.1).Sublist (L ++ (m :: r'.offers).map (·.key))
              rw [← hassoc]
              exact ihf p hp

/-- Through one enumeration step, buffer keys stay a subsequence of the
offer trace (the step only adds queue entries and unlabeled output). -/
theorem stepL_trace (ins : List Memento → Memento → List Memento)
    (fetch : FetchFn) (dcfg : DelayCfg) (mn mx : Nat) (copy : Bool)
    (i : Nat) (x : Feat) (ms : List Memento) (buf : List KV) (r : LogOut)
    (L : List Nat) (hL : (bufKeys buf).Sublist L)
    (h : stepL ins fetch dcfg mn mx copy i x ms buf = some r) :
    (bufKeys r.buf).Sublist (L ++ r.offers.map (·.key)) ∧
    ∀ p ∈ r.fetches, (bufKeys p.1).Sublist (L ++ r.offers.map (·.key)) := by
  simp only [stepL] at h
  cases hd : getDelay dcfg i x with
  | none => simp only [hd] at h; exact Option.noConfusion h
  | some d =>
    simp only [hd] at h
    cases hdr : drainL fetch mn mx ms (getMoment i x) buf with
    | none => simp only [hdr] at h; exact Option.noConfusion h
    | some rd =>
      simp only [hdr, Option.some.injEq] at h
      rw [← h]
      exact drainL_trace fetch mn mx ms (getMoment i x) buf rd L hL hdr

/-- Through the whole event loop, buffer keys (also those logged at each
fetch) stay a subsequence of the offer trace. -/
theorem runAuxL_trace (ins : List Memento → Memento → List Memento)
    (fetch : FetchFn) (dcfg : DelayCfg) (mn mx : Nat) (copy : Bool)
    (i : Nat) (ms : List Memento) (buf : List KV) (events : List Feat)
    (r : LogOut) (L : List Nat) (hL : (bufKeys buf).Sublist L)
    (h : runAuxL ins fetch dcfg mn mx copy i ms buf events = some r) :
    (bufKeys r.buf).Sublist (L ++ r.offers.map (·.key)) ∧
    ∀ p ∈ r.fetches, (bufKeys p.1).Sublist (L ++ r.offers.map (·.key)) := by
  induction events generalizing i ms buf r L with
  | nil =>
    simp only [runAuxL, Option.some.injEq] at h
    rw [← h]
    refine ⟨by simpa using hL, ?_⟩
    intro p hp
    exact absurd hp (List.not_mem_nil p)
  | cons x xs ih =>
    simp only [runAuxL] at h
    cases hs : stepL ins fetch dcfg mn mx copy i x ms buf with
    | none => simp only [hs] at h; exact Option.noConfusion h
    | some r₁ =>
      simp only [hs] at h
      cases hr : runAuxL ins fetch dcfg mn mx copy (i + 1) r₁.ms r₁.buf xs with
      | none => simp only [hr] at h; exact Option.noConfusion h
      | some r₂ =>
        simp only [hr, Option.some.injEq] at h
        obtain ⟨hs1, hs2⟩ := stepL_trace ins fetch dcfg mn mx copy i x ms buf r₁ L hL hs
        obtain ⟨ihb, ihf⟩ := ih (i + 1) r₁.ms r₁.buf r₂ (L ++ r₁.offers.map (·.key)) hs1 hr
        rw [← h]
        have hassoc : (L ++ r₁.offers.map (·.key)) ++ r₂.offers.map (·.key)
            = L ++ (r₁.offers ++ r₂.offers).map (·.key) := by
          simp
        constructor
        · show (bufKeys r₂.buf).Sublist (L ++ (r₁.offers ++ r₂.offers).map (·.key))
          rw [← hassoc]
          exact ihb
        · intro p hp
          rcases List.mem_append.mp hp with hp | hp
          · show (bufKeys p.1).Sublist (L ++ (r₁.offers ++ r₂.offers).map (·.key))
            rw [← hassoc]
            exact sublist_append_extend (hs2 p hp)
          · show (bufKeys p.1).Sublist (L ++ (r₁.offers ++ r₂.offers).map (·.key))
            rw [← hassoc]
            exact ihf p hp

/-- C2: a fetch is issued by an offer exactly when the Label Request Buffer
(after that offer) holds at least `minimum_header_size` entries — never on a
smaller buffer, and immediately on the offer that reaches the threshold.
First conjunct: per `targets` call, the fetch log is nonempty iff the
post-offer buffer reached the threshold. Second conjunct: over a whole run,
every issued fetch saw a buffer of at least `minimum_header_size` entries. -/
theorem fetch_threshold :
    (∀ (fetch : FetchFn) (mn mx : Nat) (buf : List KV) (k i : Nat) (x : Feat)
        (outs : List Triple) (buf' : List KV) (fs : List (List KV × List Nat)),
      targetsL fetch mn mx buf k i x = some (outs, buf', fs) →
      (fs ≠ [] ↔ mn ≤ (dictInsert buf k (i, x)).length)) ∧
    (∀ (fetch : FetchFn) (dcfg : DelayCfg) (mn mx : Nat) (copy : Bool)
        (events : List Feat) (r : LogOut),
      runL fetch dcfg mn mx copy events = some r →
      ∀ p ∈ r.fetches, mn ≤ p.1.length) := by
  constructor
  · intro fetch mn mx buf k i x outs buf' fs h
    exact (targetsL_fetches fetch mn mx buf k i x outs buf' fs h).1
  · intro fetch dcfg mn mx copy events r h p hp
    exact (runAuxL_fetchP (chooseInsert dcfg) fetch dcfg mn mx copy 0 [] [] events r h p hp).2

theorem fetch_threshold_witness :
    targetsL (fun _ => ⟨200, some []⟩) 1 10 [] 5 0 ⟨5, 0, []⟩
      = some ([], [], [([(5, 0, ⟨5, 0, []⟩)], [5])]) ∧
    (([([(5, 0, ⟨5, 0, []⟩)], [5])] : List (List KV × List Nat)) ≠ []
      ↔ 1 ≤ (dictInsert [] 5 (0, ⟨5, 0, []⟩)).length) :=
  ⟨rfl, fetch_threshold.1 (fun _ => ⟨200, some []⟩) 1 10 [] 5 0 ⟨5, 0, []⟩
    [] [] [([(5, 0, ⟨5, 0, []⟩)], [5])] rfl⟩

/-- C7: every batch-fetch request over a run asks for at most
`maximum_header_size` ids, and those ids are the oldest-offered entries of
the Label Request Buffer: the request is the prefix of the buffer's keys,
and the buffer's key order is a subsequence of the offer order. -/
theorem fetch_request_shape (fetch : FetchFn) (dcfg : DelayCfg) (mn mx : Nat)
    (copy : Bool) (events : List Feat) (r : LogOut)
    (h : runL fetch dcfg mn mx copy events = some r) :
    ∀ p ∈ r.fetches,
      p.2 = (bufKeys p.1).take mx ∧ p.2.length ≤ mx ∧
      (bufKeys p.1).Sublist (r.offers.map (·.key)) := by
  intro p hp
  obtain ⟨h1, -⟩ :=
    runAuxL_fetchP (chooseInsert dcfg) fetch dcfg mn mx copy 0 [] [] events r h p hp
  obtain ⟨-, h2⟩ :=
    runAuxL_trace (chooseInsert dcfg) fetch dcfg mn mx copy 0 [] [] events r []
      (List.Sublist.refl []) h
  refine ⟨h1, ?_, by simpa using h2 p hp⟩
  rw [h1, List.length_take]
  exact Nat.min_le_left _ _

theorem fetch_request_shape_witness :
    runL (fun _ => ⟨200, some [⟨1, 4⟩]⟩) .unset 1 10 true [⟨1, 0, []⟩, ⟨2, 5, []⟩]
      = some ⟨[(0, ⟨1, 0, []⟩, none), (0, ⟨1, 0, []⟩, some 4), (1, ⟨2, 5, []⟩, none)],
          [⟨2, 1, ⟨2, 5, []⟩, 5⟩], [], [⟨1, 0, ⟨1, 0, []⟩, 0⟩],
          [([(1, 0, ⟨1, 0, []⟩)], [1])]⟩ ∧
    (([1] : List Nat) = (bufKeys [(1, 0, ⟨1, 0, []⟩)]).take 10 ∧
      ([1] : List Nat).length ≤ 10 ∧
      (bufKeys [(1, 0, ⟨1, 0, []⟩)]).Sublist
        (([⟨1, 0, ⟨1, 0, []⟩, 0⟩] : List Memento).map (·.key))) :=
  ⟨rfl,
    fetch_request_shape (fun _ => ⟨200, some [⟨1, 4⟩]⟩) .unset 1 10 true
      [⟨1, 0, []⟩, ⟨2, 5, []⟩] _ rfl ([(1, 0, ⟨1, 0, []⟩)], [1])
      (List.mem_singleton.mpr rfl)⟩

/-- Everything `targets` emits is a labeled triple. -/
theorem targets_outs_labeled (fetch : FetchFn) (mn mx : Nat) (buf : List KV)
    (k i : Nat) (x : Feat) (outs : List Triple) (buf' : List KV)
    (h : targets fetch mn mx buf k i x = some (outs, buf')) :
    ∀ t ∈ outs, t.2.2.isSome = true := by
  simp only [targets] at h
  split at h
  · cases hdata : (fetch ((bufKeys (dictInsert buf k (i, x))).take mx)).data with
    | none =>
      simp only [hdata, Option.some.injEq, Prod.mk.injEq] at h
      rw [← h.1]
      intro t ht
      exact absurd ht (List.not_mem_nil t)
    | some tweets =>
      simp only [hdata] at h
      cases he : emitAll tweets (dictInsert buf k (i, x)) with
      | none => simp only [he] at h; exact Option.noConfusion h
      | some q =>
        obtain ⟨o, buf2⟩ := q
        simp only [he, Option.some.injEq, Prod.mk.injEq] at h
        rw [← h.1]
        exact emitAll_labeled tweets _ o buf2 he
  · simp only [Option.some.injEq, Prod.mk.injEq] at h
    rw [← h.1]
    intro t ht
    exact absurd ht (List.not_mem_nil t)

/-- Everything the drain loop emits is a labeled triple. -/
theorem drain_outs_labeled (fetch : FetchFn) (mn mx : Nat) (ms : List Memento)
    (t₀ : Int) (buf : List KV) (outs : List Triple) (ms' : List Memento)
    (buf' : List KV) (h : drain fetch mn mx ms t₀ buf = some (outs, ms', buf')) :
    ∀ t ∈ outs, t.2.2.isSome = true := by
  induction ms generalizing buf outs ms' buf' with
  | nil =>
    simp only [drain, Option.some.injEq, Prod.mk.injEq] at h
    rw [← h.1]
    intro t ht
    exact absurd ht (List.not_mem_nil t)
  | cons m ms ih =>
    simp only [drain] at h
    split at h
    · simp only [Option.some.injEq, Prod.mk.injEq] at h
      rw [← h.1]
      intro t ht
      exact absurd ht (List.not_mem_nil t)
    · cases ht : targets fetch mn mx buf m.key m.i m.x with
      | none => simp only [ht] at h; exact Option.noConfusion h
      | some p =>
        obtain ⟨o₁, buf₁⟩ := p
        simp only [ht] at h
        cases hd : drain fetch mn mx ms t₀ buf₁ with
        | none => simp only [hd] at h; exact Option.noConfusion h
        | some q =>
          obtain ⟨o₂, ms₂, buf₂⟩ := q
          simp only [hd, Option.some.injEq, Prod.mk.injEq] at h
          rw [← h.1]
          intro t htm
          rcases List.mem_append.mp htm with htm | htm
          · exact targets_outs_labeled fetch mn mx buf m.key m.i m.x o₁ buf₁ ht t htm
          · exact ih buf₁ o₂ ms₂ buf₂ hd t htm

/-- The unlabeled part of the output of the event loop started at index `i`
is the enumeration of the remaining events from `i`. -/
theorem runWithAux_unlabeled (ins : List Memento → Memento → List Memento)
    (fetch : FetchFn) (dcfg : DelayCfg) (mn mx : Nat) (copy : Bool)
    (events : List Feat) (i : Nat) (ms : List Memento) (buf : List KV)
    (outs : List Triple) (ms' : List Memento) (buf' : List KV)
    (h : runWithAux ins fetch dcfg mn mx copy i ms buf events = some (outs, ms', buf')) :
    outs.filter (fun t => t.2.2.isNone)
      = (events.enumFrom i).map (fun p => (p.1, p.2, (none : Option Int))) := by
  induction events generalizing i ms buf outs ms' buf' with
  | nil =>
    simp only [runWithAux, Option.some.injEq, Prod.mk.injEq] at h
    rw [← h.1]
    rfl
  | cons x xs ih =>
    simp only [runWithAux] at h
    cases hs : stepWith ins fetch dcfg mn mx copy i x ms buf with
    | none => simp only [hs] at h; exact Option.noConfusion h
    | some p =>
      obtain ⟨o₁, ms₁, buf₁⟩ := p
      simp only [hs] at h
      cases hr : runWithAux ins fetch dcfg mn mx copy (i + 1) ms₁ buf₁ xs with
      | none => simp only [hr] at h; exact Option.noConfusion h
      | some q =>
        obtain ⟨o₂, ms₂, buf₂⟩ := q
        simp only [hr, Option.some.injEq, Prod.mk.injEq] at h
        -- unpack the step
        simp only [stepWith] at hs
        cases hdel : getDelay dcfg i x with
        | none => simp only [hdel] at hs; exact Option.noConfusion hs
        | some d =>
          simp only [hdel] at hs
          cases hdr : drain fetch mn mx ms (getMoment i x) buf with
          | none => simp only [hdr] at hs; exact Option.noConfusion hs
          | some pd =>
            obtain ⟨od, msd, bufd⟩ := pd
            simp only [hdr, Option.some.injEq, Prod.mk.injEq] at hs
            have hlabeled := drain_outs_labeled fetch mn mx ms (getMoment i x) buf
              od msd bufd hdr
            have hod : od.filter (fun t => t.2.2.isNone) = [] := by
              rw [List.filter_eq_nil_iff]
              intro t htm
              have := hlabeled t htm
              cases hc : t.2.2 with
              | none => rw [hc] at this; exact absurd this (by simp)
              | some y => simp [hc]
            rw [← h.1, ← hs.1]
            rw [List.filter_append, List.filter_append, hod]
            have hx : (if copy then deepcopy x else x) = x := by
              simp [deepcopy]
            rw [ih (i + 1) ms₁ buf₁ o₂ ms₂ buf₂ hr]
            simp [List.enumFrom, hx]

/-- C5: for any finite run, the unlabeled triples emitted are exactly
`(0, x_0, None), (1, x_1, None), ...` in arrival order — indices strictly
increasing from zero with no gaps, no reordering, label always `None`. -/
theorem unlabeled_stream_in_order (fetch : FetchFn) (dcfg : DelayCfg)
    (mn mx : Nat) (copy : Bool) (events : List Feat)
    (res : List Triple × List Memento × List KV)
    (h : run fetch dcfg mn mx copy events = some res) :
    res.1.filter (fun t => t.2.2.isNone)
      = events.enum.map (fun p => (p.1, p.2, (none : Option Int))) :=
  runWithAux_unlabeled (chooseInsert dcfg) fetch dcfg mn mx copy events 0 [] []
    res.1 res.2.1 res.2.2 (by exact h)

theorem unlabeled_stream_in_order_witness :
    run (fun _ => ⟨200, some []⟩) .unset 10 100 true [⟨1, 0, []⟩, ⟨2, 5, []⟩]
      = some ([(0, ⟨1, 0, []⟩, none), (1, ⟨2, 5, []⟩, none)],
          [⟨2, 1, ⟨2, 5, []⟩, 5⟩], [(1, 0, ⟨1, 0, []⟩)]) ∧
    ([(0, ⟨1, 0, []⟩, none), (1, ⟨2, 5, []⟩, none)] : List Triple).filter
        (fun t => t.2.2.isNone)
      = ([⟨1, 0, []⟩, ⟨2, 5, []⟩] : List Feat).enum.map
          (fun p => (p.1, p.2, (none : Option Int))) :=
  ⟨rfl, unlabeled_stream_in_order (fun _ => ⟨200, some []⟩) .unset 10 100 true
    [⟨1, 0, []⟩, ⟨2, 5, []⟩] _ rfl⟩

theorem labKeys_append (a b : List Triple) :
    labKeys (a ++ b) = labKeys a ++ labKeys b := by
  simp [labKeys, List.filter_append]

/-- Last write wins: assigning a key stores its value, whether or not the
key was already present. -/
theorem lookupKey_dictInsert (buf : List KV) (k : Nat) (v : Nat × Feat) :
    lookupKey (dictInsert buf k v) k = some v := by
  induction buf with
  | nil => simp [dictInsert, lookupKey]
  | cons e rest ih =>
    by_cases he : e.1 = k
    · simp [dictInsert, he, lookupKey]
    · simp [dictInsert, he, lookupKey, ih]

/-- Whichever insertion function the delay configuration picks, the inserted
queue is a permutation of consing the new element. -/
theorem chooseInsert_perm (dcfg : DelayCfg) (q : List Memento) (m : Memento) :
    (chooseInsert dcfg q m).Perm (m :: q) := by
  cases dcfg with
  | unset => exact List.perm_append_singleton m q
  | const d => exact List.perm_append_singleton m q
  | fieldRef n => exact insortR_perm q m
  | computed f => exact insortR_perm q m

theorem nodup_append_singleton_right {l : List Nat} {a : Nat}
    (h : l.Nodup) (ha : a ∉ l) : (l ++ [a]).Nodup :=
  ((List.perm_append_singleton a l).nodup_iff).mpr (List.nodup_cons.mpr ⟨ha, h⟩)

/-- What a successful labeled-emission loop does: the emitted labeled keys
are exactly the returned tweet ids, emission moves those keys out of the
buffer without creating duplicates, and each emitted key was in the buffer. -/
theorem emitAll_spec (tws : List TweetData) (buf : List KV) (o : List Triple)
    (buf2 : List KV)
    (hE : ∀ e ∈ buf, e.2.2.id = e.1)
    (h : emitAll tws buf = some (o, buf2)) :
    labKeys o = tws.map (·.id) ∧
    (∀ acc : List Nat, (acc ++ bufKeys buf).Nodup →
      (acc ++ (labKeys o ++ bufKeys buf2)).Nodup) ∧
    (∀ j ∈ labKeys o, j ∈ bufKeys buf) := by
  induction tws generalizing buf o buf2 with
  | nil =>
    simp only [emitAll, Option.some.injEq, Prod.mk.injEq] at h
    obtain ⟨h1, h2⟩ := h
    subst h1
    subst h2
    refine ⟨by simp [labKeys], ?_, ?_⟩
    · intro acc hacc
      simpa [labKeys] using hacc
    · intro j hj
      simp [labKeys] at hj
  | cons tw rest ih =>
    simp only [emitAll] at h
    cases hp : popKey buf tw.id with
    | none => simp only [hp] at h; exact Option.noConfusion h
    | some p =>
      obtain ⟨⟨i_old, x_old⟩, bufA⟩ := p
      simp only [hp] at h
      cases he' : emitAll rest bufA with
      | none => simp only [he'] at h; exact Option.noConfusion h
      | some q =>
        obtain ⟨o', buf2'⟩ := q
        simp only [he', Option.some.injEq, Prod.mk.injEq] at h
        obtain ⟨h1, h2⟩ := h
        subst h1
        subst h2
        have hxid : x_old.id = tw.id := hE _ (popKey_mem buf tw.id _ bufA hp)
        obtain ⟨hkA, htwmem⟩ := popKey_keys buf tw.id _ bufA hp
        have hsubA : bufA.Sublist buf := popKey_sublist buf tw.id _ bufA hp
        have hEA : ∀ e ∈ bufA, e.2.2.id = e.1 := fun e he => hE e (hsubA.subset he)
        obtain ⟨ih1, ih2, ih3⟩ := ih bufA o' buf2' hEA he'
        have hlab : labKeys ((i_old, x_old, some tw.retweet_count) :: o')
            = tw.id :: labKeys o' := by
          simp [labKeys, hxid]
        refine ⟨?_, ?_, ?_⟩
        · rw [hlab, ih1]
          rfl
        · intro acc hacc
          have hperm : (acc ++ bufKeys buf).Perm ((acc ++ [tw.id]) ++ bufKeys bufA) := by
            rw [hkA]
            have p1 : (acc ++ bufKeys buf).Perm
                (acc ++ (tw.id :: (bufKeys buf).erase tw.id)) :=
              (List.perm_cons_erase htwmem).append_left acc
            have p2 : acc ++ (tw.id :: (bufKeys buf).erase tw.id)
                = (acc ++ [tw.id]) ++ (bufKeys buf).erase tw.id := by simp
            rw [← p2]
            exact p1
          have hacc' := hperm.nodup_iff.mp hacc
          have := ih2 (acc ++ [tw.id]) hacc'
          rw [hlab]
          simpa using this
        · intro j hj
          rw [hlab] at hj
          rcases List.mem_cons.mp hj with rfl | hj
          · exact htwmem
          · have := ih3 j hj
            rw [hkA] at this
            exact (List.erase_sublist _ _).subset this

theorem flatten_singleton (l : List Nat) : ([l] : List (List Nat)).flatten = l := by
  simp

/-- One `targets` call with a never-before-offered key preserves the buffer
bookkeeping invariant, extending the pools with the call's offer, labeled
emissions, requested ids and absent ids. -/
theorem targetsL_inv (fetch : FetchFn) (mn mx : Nat) (buf : List KV)
    (k i : Nat) (x : Feat) (outs : List Triple) (buf' : List KV)
    (fs : List (List KV × List Nat)) (offKs labKs reqKs deadKs : List Nat)
    (inv : BufInv offKs labKs reqKs deadKs buf)
    (hk_off : k ∉ offKs) (hx : x.id = k)
    (h : targetsL fetch mn mx buf k i x = some (outs, buf', fs)) :
    BufInv (offKs ++ [k]) (labKs ++ labKeys outs)
      (reqKs ++ (fs.map (·.2)).flatten)
      (deadKs ++ (fs.map (absentIds fetch)).flatten) buf' := by
  obtain ⟨hB, hR, hC, hDead, hDeadReq, hE⟩ := inv
  have hk_lab : k ∉ labKs := fun hm => hk_off (hC k (Or.inl hm))
  have hk_buf : k ∉ bufKeys buf := fun hm => hk_off (hC k (Or.inr (Or.inl hm)))
  have hk_req : k ∉ reqKs := fun hm => hk_off (hC k (Or.inr (Or.inr hm)))
  have hbuf1 : dictInsert buf k (i, x) = buf ++ [(k, (i, x))] :=
    dictInsert_of_not_mem buf k (i, x) hk_buf
  have hkeys1 : bufKeys (dictInsert buf k (i, x)) = bufKeys buf ++ [k] :=
    bufKeys_dictInsert_of_not_mem buf k (i, x) hk_buf
  have hB1 : (labKs ++ bufKeys (dictInsert buf k (i, x))).Nodup := by
    rw [hkeys1, ← List.append_assoc]
    exact nodup_append_singleton_right hB (by
      simp only [List.mem_append, not_or]
      exact ⟨hk_lab, hk_buf⟩)
  have hR1 : (reqKs ++ bufKeys (dictInsert buf k (i, x))).Nodup := by
    rw [hkeys1, ← List.append_assoc]
    exact nodup_append_singleton_right hR (by
      simp only [List.mem_append, not_or]
      exact ⟨hk_req, hk_buf⟩)
  have hE1 : ∀ e ∈ dictInsert buf k (i, x), e.2.2.id = e.1 := by
    rw [hbuf1]
    intro e he
    rcases List.mem_append.mp he with he | he
    · exact hE e he
    · rcases List.mem_singleton.mp he with rfl
      exact hx
  have hC1 : ∀ j, j ∈ labKs ∨ j ∈ bufKeys (dictInsert buf k (i, x)) ∨ j ∈ reqKs →
      j ∈ offKs ++ [k] := by
    intro j hj
    rw [hkeys1] at hj
    rcases hj with hj | hj | hj
    · exact List.mem_append_left _ (hC j (Or.inl hj))
    · rcases List.mem_append.mp hj with hj | hj
      · exact List.mem_append_left _ (hC j (Or.inr (Or.inl hj)))
      · exact List.mem_append_right _ hj
    · exact List.mem_append_left _ (hC j (Or.inr (Or.inr hj)))
  have hDead1 : ∀ j ∈ deadKs, j ∉ labKs ∧ j ∉ bufKeys (dictInsert buf k (i, x)) := by
    intro j hj
    obtain ⟨hj1, hj2⟩ := hDead j hj
    refine ⟨hj1, ?_⟩
    rw [hkeys1]
    simp only [List.mem_append, not_or]
    refine ⟨hj2, ?_⟩
    intro hjk
    rcases List.mem_singleton.mp hjk with rfl
    exact hk_req (hDeadReq j hj)
  simp only [targetsL] at h
  split at h
  · rename_i hle
    cases hdata : (fetch ((bufKeys (dictInsert buf k (i, x))).take mx)).data with
    | none =>
      simp only [hdata, Option.some.injEq, Prod.mk.injEq] at h
      obtain ⟨houts, hbuf', hfs⟩ := h
      subst houts
      subst hbuf'
      subst hfs
      have habsent : absentIds fetch
          (dictInsert buf k (i, x), (bufKeys (dictInsert buf k (i, x))).take mx)
          = (bufKeys (dictInsert buf k (i, x))).take mx := by
        simp only [absentIds, hdata]
      have hids_sub : ((bufKeys (dictInsert buf k (i, x))).take mx).Sublist
          (bufKeys (dictInsert buf k (i, x))) := List.take_sublist _ _
      have hids_nodup : ((bufKeys (dictInsert buf k (i, x))).take mx).Nodup :=
        (((List.nodup_append.mp hB1).2.1)).sublist hids_sub
      have hbuf'_sub : (bufKeys (dropIds ((bufKeys (dictInsert buf k (i, x))).take mx)
          (dictInsert buf k (i, x)))).Sublist (bufKeys (dictInsert buf k (i, x))) :=
        (dropIds_sublist _ _).map _
      constructor
      · simp only [labKeys, List.filter_nil, List.map_nil, List.append_nil]
        exact hB1.sublist ((List.Sublist.refl labKs).append hbuf'_sub)
      · simp only [List.map_cons, List.map_nil, flatten_singleton]
        rw [List.append_assoc]
        refine List.nodup_append.mpr ⟨(List.nodup_append.mp hR).1, ?_, ?_⟩
        · refine List.nodup_append.mpr ⟨hids_nodup,
            (List.nodup_append.mp hB1).2.1.sublist hbuf'_sub, ?_⟩
          intro j hj hj2
          exact dropIds_not_mem _ _ _ hj hj2
        · intro j hj hj2
          have hjbuf1 : j ∈ bufKeys (dictInsert buf k (i, x)) := by
            rcases List.mem_append.mp hj2 with hj2 | hj2
            · exact hids_sub.subset hj2
            · exact hbuf'_sub.subset hj2
          exact (List.nodup_append.mp hR1).2.2 hj hjbuf1
      · intro j hj
        simp only [labKeys, List.filter_nil, List.map_nil, List.append_nil,
          List.map_cons, flatten_singleton] at hj
        rcases hj with hj | hj | hj
        · exact hC1 j (Or.inl hj)
        · exact hC1 j (Or.inr (Or.inl (hbuf'_sub.subset hj)))
        · rcases List.mem_append.mp hj with hj | hj
          · exact hC1 j (Or.inr (Or.inr hj))
          · exact hC1 j (Or.inr (Or.inl (hids_sub.subset hj)))
      · intro j hj
        simp only [List.map_cons, List.map_nil, flatten_singleton, habsent] at hj
        simp only [labKeys, List.filter_nil, List.map_nil, List.append_nil]
        rcases List.mem_append.mp hj with hj | hj
        · obtain ⟨hj1, hj2⟩ := hDead1 j hj
          exact ⟨hj1, fun hm => hj2 (hbuf'_sub.subset hm)⟩
        · refine ⟨?_, ?_⟩
          · intro hm
            exact (List.nodup_append.mp hB1).2.2 hm (hids_sub.subset hj)
          · exact dropIds_not_mem _ _ _ hj
      · intro j hj
        simp only [List.map_cons, List.map_nil, flatten_singleton, habsent] at hj ⊢
        rcases List.mem_append.mp hj with hj | hj
        · exact List.mem_append_left _ (hDeadReq j hj)
        · exact List.mem_append_right _ hj
      · intro e he
        exact hE1 e ((dropIds_sublist _ _).subset he)
    | some tweets =>
      simp only [hdata] at h
      cases he' : emitAll tweets (dictInsert buf k (i, x)) with
      | none => simp only [he'] at h; exact Option.noConfusion h
      | some q =>
        obtain ⟨o, buf2⟩ := q
        simp only [he', Option.some.injEq, Prod.mk.injEq] at h
        obtain ⟨houts, hbuf', hfs⟩ := h
        subst houts
        subst hbuf'
        subst hfs
        obtain ⟨hspec1, hspec2, hspec3⟩ := emitAll_spec tweets _ o buf2 hE1 he'
        have habsent : absentIds fetch
            (dictInsert buf k (i, x), (bufKeys (dictInsert buf k (i, x))).take mx)
            = ((bufKeys (dictInsert buf k (i, x))).take mx).filter
                (fun j => !((tweets.map (·.id)).contains j)) := by
          simp only [absentIds, hdata]
        have hids_sub : ((bufKeys (dictInsert buf k (i, x))).take mx).Sublist
            (bufKeys (dictInsert buf k (i, x))) := List.take_sublist _ _
        have hids_nodup : ((bufKeys (dictInsert buf k (i, x))).take mx).Nodup :=
          ((List.nodup_append.mp hB1).2.1).sublist hids_sub
        have hbuf2_sub : (bufKeys buf2).Sublist (bufKeys (dictInsert buf k (i, x))) :=
          (emitAll_sublist _ _ _ _ he').map _
        have hbuf'_sub : (bufKeys (dropIds ((bufKeys (dictInsert buf k (i, x))).take mx)
            buf2)).Sublist (bufKeys buf2) := (dropIds_sublist _ _).map _
        have hBfull := hspec2 labKs hB1
        constructor
        · rw [← List.append_assoc] at hBfull
          exact hBfull.sublist ((List.Sublist.refl (labKs ++ labKeys o)).append hbuf'_sub)
        · simp only [List.map_cons, List.map_nil, flatten_singleton]
          rw [List.append_assoc]
          refine List.nodup_append.mpr ⟨(List.nodup_append.mp hR).1, ?_, ?_⟩
          · refine List.nodup_append.mpr ⟨hids_nodup,
              (List.nodup_append.mp hB1).2.1.sublist (hbuf'_sub.trans hbuf2_sub), ?_⟩
            intro j hj hj2
            exact dropIds_not_mem _ _ _ hj hj2
          · intro j hj hj2
            have hjbuf1 : j ∈ bufKeys (dictInsert buf k (i, x)) := by
              rcases List.mem_append.mp hj2 with hj2 | hj2
              · exact hids_sub.subset hj2
              · exact (hbuf'_sub.trans hbuf2_sub).subset hj2
            exact (List.nodup_append.mp hR1).2.2 hj hjbuf1
        · intro j hj
          simp only [List.map_cons, List.map_nil, flatten_singleton] at hj
          rcases hj with hj | hj | hj
          · rcases List.mem_append.mp hj with hj | hj
            · exact hC1 j (Or.inl hj)
            · exact hC1 j (Or.inr (Or.inl (hspec3 j hj)))
          · exact hC1 j (Or.inr (Or.inl ((hbuf'_sub.trans hbuf2_sub).subset hj)))
          · rcases List.mem_append.mp hj with hj | hj
            · exact hC1 j (Or.inr (Or.inr hj))
            · exact hC1 j (Or.inr (Or.inl (hids_sub.subset hj)))
        · intro j hj
          simp only [List.map_cons, List.map_nil, flatten_singleton, habsent] at hj
          rcases List.mem_append.mp hj with hj | hj
          · obtain ⟨hj1, hj2⟩ := hDead1 j hj
            constructor
            · simp only [List.mem_append, not_or]
              refine ⟨hj1, ?_⟩
              intro hm
              exact hj2 (hspec3 j hm)
            · intro hm
              exact hj2 ((hbuf'_sub.trans hbuf2_sub).subset hm)
          · rw [List.mem_filter] at hj
            obtain ⟨hjtake, hjabs⟩ := hj
            constructor
            · simp only [List.mem_append, not_or]
              constructor
              · intro hm
                exact (List.nodup_append.mp hB1).2.2 hm (hids_sub.subset hjtake)
              · intro hm
                rw [hspec1] at hm
                have helem : (tweets.map (·.id)).contains j = true := List.elem_iff.mpr hm
                rw [Bool.not_eq_eq_eq_not, Bool.not_true] at hjabs
                rw [hjabs] at helem
                exact Bool.false_ne_true helem
            · intro hm
              exact dropIds_not_mem _ _ _ hjtake hm
        · intro j hj
          simp only [List.map_cons, List.map_nil, flatten_singleton, habsent] at hj ⊢
          rcases List.mem_append.mp hj with hj | hj
          · exact List.mem_append_left _ (hDeadReq j hj)
          · exact List.mem_append_right _ (List.mem_of_mem_filter hj)
        · intro e he
          exact hE1 e ((emitAll_sublist _ _ _ _ he').subset ((dropIds_sublist _ _).subset he))
  · rename_i hnle
    simp only [Option.some.injEq, Prod.mk.injEq] at h
    obtain ⟨houts, hbuf', hfs⟩ := h
    subst houts
    subst hbuf'
    subst hfs
    constructor
    · simp only [labKeys, List.filter_nil, List.map_nil, List.append_nil]
      exact hB1
    · simp only [List.map_nil, List.flatten_nil, List.append_nil]
      exact hR1
    · intro j hj
      simp only [labKeys, List.filter_nil, List.map_nil, List.append_nil,
        List.flatten_nil] at hj
      exact hC1 j hj
    · intro j hj
      simp only [List.map_nil, List.flatten_nil, List.append_nil] at hj
      simp only [labKeys, List.filter_nil, List.map_nil, List.append_nil]
      exact hDead1 j hj
    · intro j hj
      simp only [List.map_nil, List.flatten_nil, List.append_nil] at hj ⊢
      exact hDeadReq j hj
    · exact hE1

/-- The drain loop preserves the buffer bookkeeping invariant, provided the
already-offered keys are distinct from the queued ones. -/
theorem drainL_inv (fetch : FetchFn) (mn mx : Nat) (ms : List Memento) (t : Int)
    (buf : List KV) (r : LogOut) (offKs labKs reqKs deadKs : List Nat)
    (inv : BufInv offKs labKs reqKs deadKs buf)
    (hA : (offKs ++ ms.map (·.key)).Nodup)
    (hEms : ∀ m ∈ ms, m.x.id = m.key)
    (h : drainL fetch mn mx ms t buf = some r) :
    BufInv (offKs ++ r.offers.map (·.key)) (labKs ++ labKeys r.outs)
      (reqKs ++ (r.fetches.map (·.2)).flatten)
      (deadKs ++ (r.fetches.map (absentIds fetch)).flatten) r.buf := by
  induction ms generalizing buf r offKs labKs reqKs deadKs with
  | nil =>
    simp only [drainL, Option.some.injEq] at h
    rw [← h]
    simpa only [List.map_nil, List.append_nil, labKeys, List.filter_nil,
      List.flatten_nil] using inv
  | cons m ms ih =>
    simp only [drainL] at h
    split at h
    · simp only [Option.some.injEq] at h
      rw [← h]
      simpa only [List.map_nil, List.append_nil, labKeys, List.filter_nil,
        List.flatten_nil] using inv
    · cases ht : targetsL fetch mn mx buf m.key m.i m.x with
      | none => simp only [ht] at h; exact Option.noConfusion h
      | some p₀ =>
        obtain ⟨outs, buf', fs⟩ := p₀
        simp only [ht] at h
        cases hd : drainL fetch mn mx ms t buf' with
        | none => simp only [hd] at h; exact Option.noConfusion h
        | some r' =>
          simp only [hd, Option.some.injEq] at h
          have hk_off : m.key ∉ offKs := by
            intro hm
            have hdisj := (List.nodup_append.mp hA).2.2
            exact hdisj hm (by simp)
          have inv₁ := targetsL_inv fetch mn mx buf m.key m.i m.x outs buf' fs
            offKs labKs reqKs deadKs inv hk_off (hEms m (List.mem_cons_self m ms)) ht
          have hA₁ : ((offKs ++ [m.key]) ++ ms.map (·.key)).Nodup := by
            simpa [List.append_assoc] using hA
          have IH := ih buf' r' (offKs ++ [m.key]) (labKs ++ labKeys outs)
            (reqKs ++ (fs.map (·.2)).flatten)
            (deadKs ++ (fs.map (absentIds fetch)).flatten) inv₁ hA₁
            (fun m' hm' => hEms m' (List.mem_cons_of_mem m hm')) hd
          rw [← h]
          simpa only [List.map_cons, List.map_append, List.flatten_append,
            labKeys_append, List.append_assoc, List.singleton_append] using IH

/-- One enumeration step preserves the buffer bookkeeping invariant; the
offered/queued keys after the step are exactly the old ones plus the new
event's key. -/
theorem stepL_inv (dcfg : DelayCfg) (fetch : FetchFn) (mn mx : Nat)
    (copy : Bool) (i : Nat) (x : Feat) (ms : List Memento) (buf : List KV)
    (r : LogOut) (offKs labKs reqKs deadKs : List Nat)
    (inv : BufInv offKs labKs reqKs deadKs buf)
    (hA : (offKs ++ ms.map (·.key)).Nodup)
    (hEms : ∀ m ∈ ms, m.x.id = m.key)
    (h : stepL (chooseInsert dcfg) fetch dcfg mn mx copy i x ms buf = some r) :
    BufInv (offKs ++ r.offers.map (·.key)) (labKs ++ labKeys r.outs)
      (reqKs ++ (r.fetches.map (·.2)).flatten)
      (deadKs ++ (r.fetches.map (absentIds fetch)).flatten) r.buf ∧
    ((offKs ++ r.offers.map (·.key)) ++ r.ms.map (·.key)).Perm
      ((offKs ++ ms.map (·.key)) ++ [x.id]) ∧
    (∀ m' ∈ r.ms, m'.x.id = m'.key) := by
  simp only [stepL] at h
  cases hdel : getDelay dcfg i x with
  | none => simp only [hdel] at h; exact Option.noConfusion h
  | some d =>
    simp only [hdel] at h
    cases hdr : drainL fetch mn mx ms (getMoment i x) buf with
    | none => simp only [hdr] at h; exact Option.noConfusion h
    | some rd =>
      simp only [hdr, Option.some.injEq] at h
      have inv' := drainL_inv fetch mn mx ms (getMoment i x) buf rd
        offKs labKs reqKs deadKs inv hA hEms hdr
      have hsplit := drainL_split fetch mn mx ms (getMoment i x) buf rd hdr
      have hkeys_split : rd.offers.map (·.key) ++ rd.ms.map (·.key) = ms.map (·.key) := by
        rw [← List.map_append, hsplit]
      rw [← h]
      refine ⟨?_, ?_, ?_⟩
      · -- invariant: the unlabeled emission contributes no labeled key
        have hunlab : labKeys (rd.outs ++ [(i, if copy then deepcopy x else x, none)])
            = labKeys rd.outs := by
          rw [labKeys_append]
          simp [labKeys]
        simpa only [hunlab] using inv'
      · -- key permutation
        have hel : (⟨getKey x, i, x, getMoment i x + d⟩ : Memento).key = x.id := rfl
        have p1 : ((chooseInsert dcfg rd.ms ⟨getKey x, i, x, getMoment i x + d⟩).map
              (·.key)).Perm (x.id :: rd.ms.map (·.key)) := by
          have := (chooseInsert_perm dcfg rd.ms ⟨getKey x, i, x, getMoment i x + d⟩).map
            (·.key)
          simpa using this
        have p2 := p1.append_left (offKs ++ rd.offers.map (·.key))
        refine p2.trans ?_
        have p3 : ((offKs ++ rd.offers.map (·.key)) ++ x.id :: rd.ms.map (·.key)).Perm
            (x.id :: ((offKs ++ rd.offers.map (·.key)) ++ rd.ms.map (·.key))) :=
          List.perm_middle
        refine p3.trans ?_
        have heq : (offKs ++ rd.offers.map (·.key)) ++ rd.ms.map (·.key)
            = offKs ++ ms.map (·.key) := by
          rw [List.append_assoc, hkeys_split]
        rw [heq]
        exact (List.perm_append_singleton x.id (offKs ++ ms.map (·.key))).symm
      · -- queue entries still satisfy key = x.id
        intro m' hm'
        have hm'' := (chooseInsert_perm dcfg rd.ms
          ⟨getKey x, i, x, getMoment i x + d⟩).subset hm'
        rcases List.mem_cons.mp hm'' with rfl | h1
        · rfl
        · have hsub : m' ∈ ms := by
            rw [← hsplit]
            exact List.mem_append_right _ h1
          exact hEms m' hsub

/-- The event loop preserves the buffer bookkeeping invariant when the ids
of the incoming events are distinct and fresh. -/
theorem runAuxL_inv (dcfg : DelayCfg) (fetch : FetchFn) (mn mx : Nat)
    (copy : Bool) (events : List Feat) (i : Nat) (ms : List Memento)
    (buf : List KV) (r : LogOut) (offKs labKs reqKs deadKs : List Nat)
    (inv : BufInv offKs labKs reqKs deadKs buf)
    (hEms : ∀ m ∈ ms, m.x.id = m.key)
    (hbig : ((offKs ++ ms.map (·.key)) ++ events.map (·.id)).Nodup)
    (h : runAuxL (chooseInsert dcfg) fetch dcfg mn mx copy i ms buf events = some r) :
    BufInv (offKs ++ r.offers.map (·.key)) (labKs ++ labKeys r.outs)
      (reqKs ++ (r.fetches.map (·.2)).flatten)
      (deadKs ++ (r.fetches.map (absentIds fetch)).flatten) r.buf ∧
    ((offKs ++ r.offers.map (·.key)) ++ r.ms.map (·.key)).Nodup := by
  induction events generalizing i ms buf r offKs labKs reqKs deadKs with
  | nil =>
    simp only [runAuxL, Option.some.injEq] at h
    rw [← h]
    constructor
    · simpa only [List.map_nil, List.append_nil, labKeys, List.filter_nil,
        List.flatten_nil] using inv
    · simpa only [List.map_nil, List.append_nil] using hbig
  | cons x xs ih =>
    simp only [runAuxL] at h
    cases hs : stepL (chooseInsert dcfg) fetch dcfg mn mx copy i x ms buf with
    | none => simp only [hs] at h; exact Option.noConfusion h
    | some r₁ =>
      simp only [hs] at h
      cases hr : runAuxL (chooseInsert dcfg) fetch dcfg mn mx copy (i + 1) r₁.ms r₁.buf xs with
      | none => simp only [hr] at h; exact Option.noConfusion h
      | some r₂ =>
        simp only [hr, Option.some.injEq] at h
        have hA : (offKs ++ ms.map (·.key)).Nodup :=
          hbig.sublist (List.sublist_append_left _ _)
        have hfresh : x.id ∉ offKs ++ ms.map (·.key) := by
          intro hm
          have hdisj := (List.nodup_append.mp hbig).2.2
          exact hdisj hm (by simp)
        obtain ⟨inv₁, hperm, hEms₁⟩ := stepL_inv dcfg fetch mn mx copy i x ms buf r₁
          offKs labKs reqKs deadKs inv hA hEms hs
        have hbig₁ : (((offKs ++ r₁.offers.map (·.key)) ++ r₁.ms.map (·.key))
            ++ xs.map (·.id)).Nodup := by
          have hp := hperm.append_right (xs.map (·.id))
          rw [hp.nodup_iff]
          have heq : ((offKs ++ ms.map (·.key)) ++ [x.id]) ++ xs.map (·.id)
              = (offKs ++ ms.map (·.key)) ++ (x.id :: xs.map (·.id)) := by
            simp
          rw [heq]
          simpa using hbig
        obtain ⟨inv₂, hA₂⟩ := ih (i + 1) r₁.ms r₁.buf r₂
          (offKs ++ r₁.offers.map (·.key)) (labKs ++ labKeys r₁.outs)
          (reqKs ++ (r₁.fetches.map (·.2)).flatten)
          (deadKs ++ (r₁.fetches.map (absentIds fetch)).flatten)
          inv₁ hEms₁ hbig₁ hr
        rw [← h]
        constructor
        · simpa only [List.map_append, List.flatten_append, labKeys_append,
            List.append_assoc] using inv₂
        · simpa only [List.map_append, List.append_assoc] using hA₂

/-- Over a whole run with distinct event ids: the offered keys, the labeled
output keys, the requested ids and the absent ids satisfy the bookkeeping
invariant, and the offered keys plus the remaining queue keys are distinct. -/
theorem runL_inv (fetch : FetchFn) (dcfg : DelayCfg) (mn mx : Nat)
    (copy : Bool) (events : List Feat) (r : LogOut)
    (hkeys : (events.map (·.id)).Nodup)
    (h : runL fetch dcfg mn mx copy events = some r) :
    BufInv (r.offers.map (·.key)) (labKeys r.outs)
      ((r.fetches.map (·.2)).flatten)
      ((r.fetches.map (absentIds fetch)).flatten) r.buf ∧
    ((r.offers.map (·.key)) ++ r.ms.map (·.key)).Nodup := by
  have init : BufInv [] [] [] [] [] := by
    refine ⟨?_, ?_, ?_, ?_, ?_, ?_⟩ <;> simp [bufKeys]
  have hmain := runAuxL_inv dcfg fetch mn mx copy events 0 [] [] r [] [] [] []
    init (by simp) (by simpa using hkeys) h
  constructor
  · simpa only [List.nil_append] using hmain.1
  · simpa only [List.nil_append] using hmain.2

/-- C6: when the run's event keys are distinct, each key is offered to the
Label Request Buffer at most once over the whole run, and at most one
labeled triple is ever emitted for it; complementary to that, the buffer is
a dict with last-write-wins semantics — assigning a key stores its new
value whether or not the key is present. -/
theorem key_offered_once (fetch : FetchFn) (dcfg : DelayCfg) (mn mx : Nat)
    (copy : Bool) (events : List Feat) (r : LogOut) (k : Nat)
    (hkeys : (events.map (·.id)).Nodup)
    (h : runL fetch dcfg mn mx copy events = some r) :
    (r.offers.map (·.key)).count k ≤ 1 ∧
    (labKeys r.outs).count k ≤ 1 ∧
    (∀ (buf : List KV) (v : Nat × Feat), lookupKey (dictInsert buf k v) k = some v) := by
  obtain ⟨inv, hA⟩ := runL_inv fetch dcfg mn mx copy events r hkeys h
  refine ⟨?_, ?_, fun buf v => lookupKey_dictInsert buf k v⟩
  · exact List.nodup_iff_count_le_one.mp
      (hA.sublist (List.sublist_append_left _ _)) k
  · exact List.nodup_iff_count_le_one.mp
      (inv.hB.sublist (List.sublist_append_left _ _)) k

theorem key_offered_once_witness :
    (([⟨6, 0, []⟩, ⟨8, 9, []⟩] : List Feat).map (·.id)).Nodup ∧
    runL (fun _ => ⟨200, some [⟨6, 2⟩]⟩) .unset 1 10 true [⟨6, 0, []⟩, ⟨8, 9, []⟩]
      = some ⟨[(0, ⟨6, 0, []⟩, none), (0, ⟨6, 0, []⟩, some 2), (1, ⟨8, 9, []⟩, none)],
          [⟨8, 1, ⟨8, 9, []⟩, 9⟩], [], [⟨6, 0, ⟨6, 0, []⟩, 0⟩],
          [([(6, 0, ⟨6, 0, []⟩)], [6])]⟩ ∧
    ((([⟨6, 0, ⟨6, 0, []⟩, 0⟩] : List Memento).map (·.key)).count 6 ≤ 1 ∧
      (labKeys [(0, ⟨6, 0, []⟩, none), (0, ⟨6, 0, []⟩, some 2),
        (1, ⟨8, 9, []⟩, none)]).count 6 ≤ 1 ∧
      (∀ (buf : List KV) (v : Nat × Feat),
        lookupKey (dictInsert buf 6 v) 6 = some v)) :=
  ⟨by decide, rfl,
    key_offered_once (fun _ => ⟨200, some [⟨6, 2⟩]⟩) .unset 1 10 true
      [⟨6, 0, []⟩, ⟨8, 9, []⟩] _ 6 (by decide) rfl⟩

/-- C3: with distinct event keys, every id a batch fetch requests is removed
from the Label Request Buffer by that fetch (first conjunct, per `targets`
call), no id is ever requested in two fetches over a run (second conjunct),
and a requested id that the fetch result omits never yields a labeled triple
— the observation is dropped silently (third conjunct). -/
theorem absent_ids_dropped (fetch : FetchFn) (dcfg : DelayCfg) (mn mx : Nat)
    (copy : Bool) (events : List Feat) (r : LogOut)
    (hkeys : (events.map (·.id)).Nodup)
    (h : runL fetch dcfg mn mx copy events = some r) :
    (∀ (fetch' : FetchFn) (mn' mx' : Nat) (buf : List KV) (k i : Nat) (x : Feat)
        (outs : List Triple) (buf' : List KV) (fs : List (List KV × List Nat)),
      targetsL fetch' mn' mx' buf k i x = some (outs, buf', fs) →
      ∀ p ∈ fs, ∀ j ∈ p.2, j ∉ bufKeys buf') ∧
    ((r.fetches.map (·.2)).flatten).Nodup ∧
    (∀ p ∈ r.fetches, ∀ j ∈ absentIds fetch p,
      ∀ tpl ∈ r.outs, tpl.2.2.isSome = true → tpl.2.1.id ≠ j) := by
  obtain ⟨inv, hA⟩ := runL_inv fetch dcfg mn mx copy events r hkeys h
  refine ⟨?_, ?_, ?_⟩
  · intro fetch' mn' mx' buf k i x outs buf' fs ht p hp j hj
    obtain ⟨-, hfacts⟩ := targetsL_fetches fetch' mn' mx' buf k i x outs buf' fs ht
    exact (hfacts p hp).2.2.2 j hj
  · exact inv.hR.sublist (List.sublist_append_left _ _)
  · intro p hp j hj tpl htpl hlab heq
    have hdead : j ∈ (r.fetches.map (absentIds fetch)).flatten := by
      rw [List.mem_flatten]
      exact ⟨absentIds fetch p, List.mem_map_of_mem _ hp, hj⟩
    have hjlab : j ∈ labKeys r.outs := by
      rw [labKeys, List.mem_map]
      exact ⟨tpl, List.mem_filter.mpr ⟨htpl, hlab⟩, heq⟩
    exact (inv.hDead j hdead).1 hjlab

theorem absent_ids_dropped_witness :
    (([⟨3, 0, []⟩, ⟨4, 7, []⟩] : List Feat).map (·.id)).Nodup ∧
    runL (fun _ => ⟨200, some []⟩) .unset 1 5 true [⟨3, 0, []⟩, ⟨4, 7, []⟩]
      = some ⟨[(0, ⟨3, 0, []⟩, none), (1, ⟨4, 7, []⟩, none)],
          [⟨4, 1, ⟨4, 7, []⟩, 7⟩], [], [⟨3, 0, ⟨3, 0, []⟩, 0⟩],
          [([(3, 0, ⟨3, 0, []⟩)], [3])]⟩ ∧
    (((([([(3, 0, ⟨3, 0, []⟩)], [3])] : List (List KV × List Nat)).map (·.2)).flatten).Nodup ∧
      (∀ p ∈ ([([(3, 0, ⟨3, 0, []⟩)], [3])] : List (List KV × List Nat)),
        ∀ j ∈ absentIds (fun _ => ⟨200, some []⟩) p,
        ∀ tpl ∈ ([(0, ⟨3, 0, []⟩, none), (1, ⟨4, 7, []⟩, none)] : List Triple),
          tpl.2.2.isSome = true → tpl.2.1.id ≠ j)) :=
  ⟨by decide, rfl,
    (absent_ids_dropped (fun _ => ⟨200, some []⟩) .unset 1 5 true
      [⟨3, 0, []⟩, ⟨4, 7, []⟩] _ (by decide) rfl).2.1,
    (absent_ids_dropped (fun _ => ⟨200, some []⟩) .unset 1 5 true
      [⟨3, 0, []⟩, ⟨4, 7, []⟩] _ (by decide) rfl).2.2⟩

/-- C1 counterexample: with a constant delay of 10, events at moments 0
and 5, the first record's `due_at` (10) is at most the due time of the
newest incoming event (5 + 10 = 15), yet after the run it is still in the
Pending Queue and the offer log is empty — the drain compares `due_at`
against the newest event's **moment** `t`, not against its due time
`t + d`. -/
theorem drain_threshold_counterexample :
    runL (fun _ => ⟨200, some []⟩) (.const 10) 10 100 true
        [⟨0, 0, []⟩, ⟨1, 5, []⟩]
      = some ⟨[(0, ⟨0, 0, []⟩, none), (1, ⟨1, 5, []⟩, none)],
          [⟨0, 0, ⟨0, 0, []⟩, 10⟩, ⟨1, 1, ⟨1, 5, []⟩, 15⟩], [], [], []⟩
    ∧ (⟨0, 0, ⟨0, 0, []⟩, 10⟩ : Memento).t_expire ≤ getMoment 1 ⟨1, 5, []⟩ + 10 :=
  ⟨rfl, by decide⟩

/-- C1 (amended): on each arrival the drain loop removes from the (due-time
ordered) Pending Queue exactly the records whose `due_at` is at most the
**moment** `t` of the newest incoming event, offering each of them to the
Label Request Buffer once; every record with `due_at > t` stays, and offered
and remaining records partition the queue. -/
theorem drain_exactly_due_by_moment (fetch : FetchFn) (mn mx : Nat)
    (ms : List Memento) (t : Int) (buf : List KV) (r : LogOut)
    (hsort : ms.Pairwise (fun a b => a.t_expire ≤ b.t_expire))
    (h : drainL fetch mn mx ms t buf = some r) :
    r.offers = ms.takeWhile (fun m => decide (m.t_expire ≤ t)) ∧
    r.ms = ms.dropWhile (fun m => decide (m.t_expire ≤ t)) ∧
    r.offers ++ r.ms = ms ∧
    (∀ m ∈ r.offers, m.t_expire ≤ t) ∧
    (∀ m ∈ r.ms, t < m.t_expire) := by
  induction ms generalizing buf r with
  | nil =>
    simp only [drainL, Option.some.injEq] at h
    rw [← h]
    refine ⟨rfl, rfl, rfl, ?_, ?_⟩ <;> intro m hm <;> exact absurd hm (List.not_mem_nil m)
  | cons m ms ih =>
    rcases List.pairwise_cons.mp hsort with ⟨hm_le, hsort'⟩
    simp only [drainL] at h
    split at h
    · -- t < m.t_expire : the head is not old enough, nothing drains
      rename_i hgt
      simp only [Option.some.injEq] at h
      rw [← h]
      have hcond : decide (m.t_expire ≤ t) = false := by
        simp [not_le.mpr hgt]
      refine ⟨by simp [List.takeWhile_cons, hcond], by simp [List.dropWhile_cons, hcond],
        rfl, ?_, ?_⟩
      · intro y hy
        exact absurd hy (List.not_mem_nil y)
      · intro y hy
        rcases List.mem_cons.mp hy with rfl | hy
        · exact hgt
        · exact lt_of_lt_of_le hgt (hm_le y hy)
    · -- m.t_expire ≤ t : the head drains and is offered
      rename_i hngt
      have hle : m.t_expire ≤ t := not_lt.mp hngt
      have hcond : decide (m.t_expire ≤ t) = true := by simp [hle]
      cases ht : targetsL fetch mn mx buf m.key m.i m.x with
      | none => simp only [ht] at h; exact Option.noConfusion h
      | some p =>
        obtain ⟨outs, buf', fs⟩ := p
        simp only [ht] at h
        cases hd : drainL fetch mn mx ms t buf' with
        | none => simp only [hd] at h; exact Option.noConfusion h
        | some r' =>
          simp only [hd, Option.some.injEq] at h
          obtain ⟨ih1, ih2, ih3, ih4, ih5⟩ := ih buf' r' hsort' hd
          rw [← h]
          refine ⟨by simp [List.takeWhile_cons, hcond, ih1],
            by simp [List.dropWhile_cons, hcond, ih2], ?_, ?_, ih5⟩
          · show (m :: r'.offers) ++ r'.ms = m :: ms
            simp [ih3]
          · intro y hy
            rcases List.mem_cons.mp hy with rfl | hy
            · exact hle
            · exact ih4 y hy

theorem drain_exactly_due_by_moment_witness :
    ([⟨0, 0, ⟨0, 0, []⟩, 3⟩, ⟨1, 1, ⟨1, 1, []⟩, 9⟩] : List Memento).Pairwise
        (fun a b => a.t_expire ≤ b.t_expire) ∧
    (([⟨0, 0, ⟨0, 0, []⟩, 3⟩] : List Memento)
        = ([⟨0, 0, ⟨0, 0, []⟩, 3⟩, ⟨1, 1, ⟨1, 1, []⟩, 9⟩] : List Memento).takeWhile
            (fun m => decide (m.t_expire ≤ 5)) ∧
      ([⟨1, 1, ⟨1, 1, []⟩, 9⟩] : List Memento)
        = ([⟨0, 0, ⟨0, 0, []⟩, 3⟩, ⟨1, 1, ⟨1, 1, []⟩, 9⟩] : List Memento).dropWhile
            (fun m => decide (m.t_expire ≤ 5)) ∧
      ([⟨0, 0, ⟨0, 0, []⟩, 3⟩] : List Memento) ++ [⟨1, 1, ⟨1, 1, []⟩, 9⟩]
        = [⟨0, 0, ⟨0, 0, []⟩, 3⟩, ⟨1, 1, ⟨1, 1, []⟩, 9⟩] ∧
      (∀ m ∈ ([⟨0, 0, ⟨0, 0, []⟩, 3⟩] : List Memento), m.t_expire ≤ 5) ∧
      (∀ m ∈ ([⟨1, 1, ⟨1, 1, []⟩, 9⟩] : List Memento), (5 : Int) < m.t_expire)) := by
  refine ⟨by decide, ?_⟩
  exact drain_exactly_due_by_moment (fun _ => ⟨200, some []⟩) 10 100
    [⟨0, 0, ⟨0, 0, []⟩, 3⟩, ⟨1, 1, ⟨1, 1, []⟩, 9⟩] 5 [] _ (by decide) rfl

